import Mathlib

/-!
Shallow embedding of `lru-slab` (`src/lib.rs`): a slab allocator with a
LIFO free list and an intrusive doubly-linked LRU list, both sharing one
backing array of slots.  Machine `u32` indices are modelled as `Nat` with
the sentinel `NONE = u32::MAX`; arithmetic that can wrap in release builds
(the capacity-doubling multiply) carries an explicit `% 2^32`.  Rust panics
(out-of-bounds indexing, `expect`/`unwrap` failures, the `assert!` in
`with_capacity`) are modelled by `Option`-valued operations returning
`none`.
-/

set_option maxHeartbeats 1000000

/-- `u32::MAX`, the reserved sentinel index `NONE` of `src/lib.rs`. -/
def NONE : Nat := 4294967295

/-- `2^32`, the modulus of `u32` arithmetic. -/
def U32 : Nat := 4294967296

/-- One cell of the backing array (`struct Slot<T>`): an optional payload,
a `next` link (LRU successor when occupied, next free slot when free) and
a `prev` link (LRU predecessor; unused while free). -/
structure Slot (T : Type) where
  value : Option T
  next : Nat
  prev : Nat
deriving DecidableEq, Repr

/-- The container (`struct LruSlab<T>`): backing slots, most-recently-used
`head`, least-recently-used `tail`, free-list head `free`, and occupied
count `len`. -/
structure LruSlab (T : Type) where
  slots : List (Slot T)
  head : Nat
  tail : Nat
  free : Nat
  len : Nat
deriving DecidableEq, Repr

namespace LruSlab

variable {T : Type}

/-- `LruSlab::with_capacity`, minus the `assert!`: builds `capacity` free
slots chained consecutively. -/
def with_capacity_raw (T : Type) (capacity : Nat) : LruSlab T :=
  { slots := (List.range capacity).map (fun n =>
      { value := none
        prev := NONE
        next := if n + 1 = capacity then NONE else n + 1 })
    head := NONE
    tail := NONE
    free := if capacity = 0 then NONE else 0
    len := 0 }

/-- `LruSlab::with_capacity`; the `assert!(capacity != u32::max_value())`
is modelled by returning `none` (panic) when `capacity = NONE`. -/
def with_capacity (T : Type) (capacity : Nat) : Option (LruSlab T) :=
  if capacity = NONE then none else some (with_capacity_raw T capacity)

/-- `LruSlab::new()`, i.e. `with_capacity(0)`. -/
def new (T : Type) : LruSlab T := with_capacity_raw T 0

/-- `LruSlab::is_empty`. -/
def is_empty (s : LruSlab T) : Bool := s.len == 0

/-- `LruSlab::capacity` (`self.slots.len()`). -/
def capacity (s : LruSlab T) : Nat := s.slots.length

/-- `LruSlab::alloc`: pop the free-list head, or report exhaustion.
The outer `Option` is the panic monad (indexing `self.slots[slot]` can be
out of bounds on a corrupt state); the inner `Option` is alloc's result. -/
def alloc (s : LruSlab T) : Option (Option Nat × LruSlab T) :=
  if s.free = NONE then some (none, s)
  else
    match s.slots[s.free]? with
    | none => none
    | some sl => some (some s.free, { s with free := sl.next })

/-- `LruSlab::link_at_head`: splice `slot` in at the head of the LRU
list, following the source's write order. -/
def link_at_head (s : LruSlab T) (slot : Nat) : Option (LruSlab T) :=
  match s.slots[slot]? with
  | none => none
  | some sl =>
    if s.head = NONE then
      some { s with
        slots := s.slots.set slot { sl with next := NONE, prev := NONE }
        tail := slot
        head := slot }
    else
      let slots₁ := s.slots.set slot { sl with next := s.head }
      match slots₁[s.head]? with
      | none => none
      | some hsl =>
        let slots₂ := slots₁.set s.head { hsl with prev := slot }
        match slots₂[slot]? with
        | none => none
        | some sl₂ =>
          some { s with
            slots := slots₂.set slot { sl₂ with prev := NONE }
            head := slot }

/-- `LruSlab::unlink`: splice `slot` out of the LRU list, leaving the
slot's own links untouched.  Both neighbour reads come from the state
before any write, which coincides with the source's read order. -/
def unlink (s : LruSlab T) (slot : Nat) : Option (LruSlab T) :=
  match s.slots[slot]? with
  | none => none
  | some sl =>
    let step1 : Option (LruSlab T) :=
      if sl.prev ≠ NONE then
        match s.slots[sl.prev]? with
        | none => none
        | some p => some { s with slots := s.slots.set sl.prev { p with next := sl.next } }
      else
        some { s with head := sl.next }
    match step1 with
    | none => none
    | some s₁ =>
      if sl.next ≠ NONE then
        match s₁.slots[sl.next]? with
        | none => none
        | some q => some { s₁ with slots := s₁.slots.set sl.next { q with prev := sl.prev } }
      else
        some { s₁ with tail := sl.prev }

/-- The growth step inside `LruSlab::insert`: new capacity
`2 * old.max(2)` (wrapping `u32` multiply), existing slots copied
verbatim, fresh free slots chained consecutively, free head set to
`old_capacity + 1`. -/
def grow (s : LruSlab T) : LruSlab T :=
  let len := s.capacity
  let cap := (2 * max len 2) % U32
  { s with
    slots := s.slots ++ (List.range' len (cap - len)).map (fun n =>
      { value := none
        prev := NONE
        next := if n + 1 = cap then NONE else n + 1 })
    free := len + 1 }

/-- The tail of `LruSlab::insert` after a slot `id` has been obtained:
write the value, link at head, bump `len`. -/
def insertCore (s : LruSlab T) (id : Nat) (v : T) : Option (Nat × LruSlab T) :=
  match s.slots[id]? with
  | none => none
  | some sl =>
    let s₂ := { s with slots := s.slots.set id { sl with value := some v } }
    match link_at_head s₂ id with
    | none => none
    | some s₃ => some (id, { s₃ with len := s₃.len + 1 })

/-- `LruSlab::insert`: allocate (growing when the free list is empty,
in which case the slot handed out is the old capacity), store the value,
link at head. -/
def insert (s : LruSlab T) (v : T) : Option (Nat × LruSlab T) :=
  match alloc s with
  | none => none
  | some (some id, s₁) => insertCore s₁ id v
  | some (none, s₁) => insertCore (grow s₁) s₁.capacity v

/-- `LruSlab::lru`: the current tail, or `none` when empty. -/
def lru (s : LruSlab T) : Option Nat :=
  if s.tail = NONE then none else some s.tail

/-- `LruSlab::remove`: unlink, push onto the free list, decrement `len`,
take the payload; the `expect("removing empty slot")` panic is `none`. -/
def remove (s : LruSlab T) (slot : Nat) : Option (T × LruSlab T) :=
  match unlink s slot with
  | none => none
  | some s₁ =>
    match s₁.slots[slot]? with
    | none => none
    | some sl =>
      let s₂ := { s₁ with
        slots := s₁.slots.set slot { sl with next := s₁.free, prev := NONE, value := none }
        free := slot
        len := s₁.len - 1 }
      match sl.value with
      | none => none
      | some v => some (v, s₂)

/-- `LruSlab::freshen`: no-op when `slot` is already the head
(`prev == NONE`), otherwise unlink and relink at head. -/
def freshen (s : LruSlab T) (slot : Nat) : Option (LruSlab T) :=
  match s.slots[slot]? with
  | none => none
  | some sl =>
    if sl.prev = NONE then some s
    else
      match unlink s slot with
      | none => none
      | some s₁ => link_at_head s₁ slot

/-- `LruSlab::get_mut`: freshen, then hand out the value (`peek_mut`). -/
def get_mut (s : LruSlab T) (slot : Nat) : Option (T × LruSlab T) :=
  match freshen s slot with
  | none => none
  | some s₁ =>
    match s₁.slots[slot]? with
    | none => none
    | some sl =>
      match sl.value with
      | none => none
      | some v => some (v, s₁)

/-- `LruSlab::peek`: read the payload without touching any link. -/
def peek (s : LruSlab T) (slot : Nat) : Option T :=
  match s.slots[slot]? with
  | none => none
  | some sl => sl.value

/-- `LruSlab::peek_mut`: exclusive access without reordering; the state
the call leaves behind is returned explicitly so that frame facts can be
stated. -/
def peek_mut (s : LruSlab T) (slot : Nat) : Option (T × LruSlab T) :=
  match s.slots[slot]? with
  | none => none
  | some sl =>
    match sl.value with
    | none => none
    | some v => some (v, s)

end LruSlab

/-- The borrowed iterator (`struct Iter`). -/
structure Iter (T : Type) where
  slots : List (Slot T)
  head : Nat
  tail : Nat
  len : Nat
deriving DecidableEq, Repr

namespace LruSlab

variable {T : Type}

/-- `LruSlab::iter`. -/
def iter (s : LruSlab T) : Iter T :=
  { slots := s.slots, head := s.head, tail := s.tail, len := s.len }

end LruSlab

namespace Iter

variable {T : Type}

/-- `Iterator::next` for `Iter`: the outer `Option` is the panic monad
(`expect("corrupt LRU list")` and indexing), the inner `Option` is the
iterator's answer. -/
def next (it : Iter T) : Option (Option (T × Iter T)) :=
  if it.len = 0 then some none
  else
    match it.slots[it.head]? with
    | none => none
    | some sl =>
      match sl.value with
      | none => none
      | some v => some (some (v, { it with head := sl.next, len := it.len - 1 }))

/-- `DoubleEndedIterator::next_back` for `Iter`. -/
def next_back (it : Iter T) : Option (Option (T × Iter T)) :=
  if it.len = 0 then some none
  else
    match it.slots[it.tail]? with
    | none => none
    | some sl =>
      match sl.value with
      | none => none
      | some v => some (some (v, { it with tail := sl.prev, len := it.len - 1 }))

/-- Run the iterator `fuel` steps, collecting the yielded values
(`cache.iter().collect()`); `none` means some step panicked. -/
def collectSteps : Nat → Iter T → Option (List T)
  | 0, _ => some []
  | fuel + 1, it =>
    match it.next with
    | none => none
    | some none => some []
    | some (some (v, it')) =>
      match collectSteps fuel it' with
      | none => none
      | some vs => some (v :: vs)

end Iter

namespace LruSlab

variable {T : Type}

/-- The full MRU→LRU traversal: `s.iter().collect()`.  `s.len` steps of
fuel suffice because the iterator stops itself at `len = 0`. -/
def iterList (s : LruSlab T) : Option (List T) :=
  Iter.collectSteps s.len s.iter

/-- Insert a whole list of values left to right, keeping only the final
state (`for v in vs { s.insert(v); }`). -/
def insertAll (s : LruSlab T) (vs : List T) : Option (LruSlab T) :=
  match vs with
  | [] => some s
  | v :: rest =>
    match s.insert v with
    | none => none
    | some (_, s') => insertAll s' rest

/-- Repeatedly take `lru()` and `remove` it, `n` times, collecting the
removed values and the final state. -/
def drainAll : Nat → LruSlab T → Option (List T × LruSlab T)
  | 0, s => some ([], s)
  | n + 1, s =>
    match s.lru with
    | none => none
    | some t =>
      match s.remove t with
      | none => none
      | some (v, s₁) =>
        match drainAll n s₁ with
        | none => none
        | some (vs, s₂) => some (v :: vs, s₂)

/-- States reachable from construction by the public mutating API. -/
inductive Reachable : LruSlab T → Prop
  | of_with_capacity (c : Nat) (s : LruSlab T) :
      c < U32 → with_capacity T c = some s → Reachable s
  | of_insert (s s' : LruSlab T) (v : T) (id : Nat) :
      Reachable s → insert s v = some (id, s') → Reachable s'
  | of_remove (s s' : LruSlab T) (slot : Nat) (v : T) :
      Reachable s → remove s slot = some (v, s') → Reachable s'
  | of_get_mut (s s' : LruSlab T) (slot : Nat) (v : T) :
      Reachable s → get_mut s slot = some (v, s') → Reachable s'

end LruSlab

/-! ## Abstraction layer: explicit link chains

`Shape s ll fl` says the container `s` looks exactly like an LRU list
over the slot indices `ll` (MRU first) and a free list over `fl`, the two
partitioning the backing array. -/

namespace LruSlab

variable {T : Type}

/-- The `next` link stored at index `i` (`NONE` when out of bounds). -/
def nextOf (slots : List (Slot T)) (i : Nat) : Nat :=
  match slots[i]? with
  | some sl => sl.next
  | none => NONE

/-- The `prev` link stored at index `i` (`NONE` when out of bounds). -/
def prevOf (slots : List (Slot T)) (i : Nat) : Nat :=
  match slots[i]? with
  | some sl => sl.prev
  | none => NONE

/-- The payload stored at index `i` (`none` when out of bounds or free). -/
def valAt (slots : List (Slot T)) (i : Nat) : Option T :=
  match slots[i]? with
  | some sl => sl.value
  | none => none

/-- `NextSeg slots i l j`: starting from the link value `i`, following
`next` visits exactly the indices of `l` in order (each in bounds) and
arrives at the link value `j`. -/
def NextSeg (slots : List (Slot T)) : Nat → List Nat → Nat → Prop
  | i, [], j => i = j
  | i, a :: l, j => i = a ∧ (slots[a]?).isSome = true ∧ NextSeg slots (nextOf slots a) l j

/-- A complete `next`-chain: a segment ending at the sentinel. -/
def NextChain (slots : List (Slot T)) (i : Nat) (l : List Nat) : Prop :=
  NextSeg slots i l NONE

/-- `PrevChain slots p l`: each element of `l` has its `prev` link
pointing at its predecessor in `l`, with `p` standing before the first
element. -/
def PrevChain (slots : List (Slot T)) : Nat → List Nat → Prop
  | _, [] => True
  | p, a :: l => prevOf slots a = p ∧ PrevChain slots a l

/-- The payloads stored at the given indices, in order; `none` if any of
them is absent. -/
def valsOf (slots : List (Slot T)) : List Nat → Option (List T)
  | [] => some []
  | a :: l =>
    match valAt slots a, valsOf slots l with
    | some v, some vs => some (v :: vs)
    | _, _ => none

/-- The structural invariant of `LruSlab`, with the two lists made
explicit: `ll` is the LRU list (MRU first), `fl` the free list, and
together they partition the slot indices. -/
structure Shape (s : LruSlab T) (ll fl : List Nat) : Prop where
  cap_lt : s.slots.length < NONE
  next_ll : NextChain s.slots s.head ll
  prev_ll : PrevChain s.slots NONE ll
  tail_eq : s.tail = ll.getLastD NONE
  occ : ∀ a ∈ ll, (valAt s.slots a).isSome = true
  next_fl : NextChain s.slots s.free fl
  free_val : ∀ a ∈ fl, valAt s.slots a = none
  perm : (ll ++ fl).Perm (List.range s.slots.length)
  len_eq : s.len = ll.length

theorem NextSeg_nil {slots : List (Slot T)} {i j : Nat} :
    NextSeg slots i [] j ↔ i = j := Iff.rfl

theorem NextSeg_cons {slots : List (Slot T)} {i j a : Nat} {l : List Nat} :
    NextSeg slots i (a :: l) j ↔
      i = a ∧ (slots[a]?).isSome = true ∧ NextSeg slots (nextOf slots a) l j := Iff.rfl

theorem PrevChain_nil {slots : List (Slot T)} {p : Nat} :
    PrevChain slots p ([] : List Nat) := trivial

theorem PrevChain_cons {slots : List (Slot T)} {p a : Nat} {l : List Nat} :
    PrevChain slots p (a :: l) ↔ prevOf slots a = p ∧ PrevChain slots a l := Iff.rfl

theorem NextSeg_congr {slots slots' : List (Slot T)} {l : List Nat}
    (h : ∀ k ∈ l, slots'[k]? = slots[k]?) :
    ∀ {i j : Nat}, NextSeg slots i l j → NextSeg slots' i l j := by
  induction l with
  | nil => intro i j hs; exact hs
  | cons a l ih =>
    intro i j hs
    obtain ⟨hi, hsome, hrest⟩ := hs
    have ha := h a (List.mem_cons_self a l)
    refine ⟨hi, by rw [ha]; exact hsome, ?_⟩
    have hnext : nextOf slots' a = nextOf slots a := by
      unfold nextOf; rw [ha]
    rw [hnext]
    exact ih (fun k hk => h k (List.mem_cons_of_mem a hk)) hrest

theorem PrevChain_congr {slots slots' : List (Slot T)} {l : List Nat}
    (h : ∀ k ∈ l, prevOf slots' k = prevOf slots k) :
    ∀ {p : Nat}, PrevChain slots p l → PrevChain slots' p l := by
  induction l with
  | nil => intro p _; trivial
  | cons a l ih =>
    intro p hc
    obtain ⟨hpa, hrest⟩ := hc
    exact ⟨by rw [h a (List.mem_cons_self a l)]; exact hpa,
      ih (fun k hk => h k (List.mem_cons_of_mem a hk)) hrest⟩

theorem NextSeg_append {slots : List (Slot T)} {l₁ l₂ : List Nat} :
    ∀ {i j : Nat}, NextSeg slots i (l₁ ++ l₂) j ↔
      ∃ k, NextSeg slots i l₁ k ∧ NextSeg slots k l₂ j := by
  induction l₁ with
  | nil =>
    intro i j
    constructor
    · intro hs; exact ⟨i, rfl, hs⟩
    · rintro ⟨k, rfl, hs⟩; exact hs
  | cons a l ih =>
    intro i j
    constructor
    · rintro ⟨rfl, hsome, hrest⟩
      obtain ⟨k, h1, h2⟩ := ih.mp hrest
      exact ⟨k, ⟨rfl, hsome, h1⟩, h2⟩
    · rintro ⟨k, ⟨rfl, hsome, h1⟩, h2⟩
      exact ⟨rfl, hsome, ih.mpr ⟨k, h1, h2⟩⟩

theorem PrevChain_append {slots : List (Slot T)} {l₁ l₂ : List Nat} :
    ∀ {p : Nat}, PrevChain slots p (l₁ ++ l₂) ↔
      PrevChain slots p l₁ ∧ PrevChain slots (l₁.getLastD p) l₂ := by
  induction l₁ with
  | nil => intro p; simp [PrevChain, List.getLastD]
  | cons a l ih =>
    intro p
    rw [List.cons_append, PrevChain_cons, PrevChain_cons, List.getLastD_cons, ih, and_assoc]

theorem NextSeg_isSome {slots : List (Slot T)} {l : List Nat} :
    ∀ {i j : Nat}, NextSeg slots i l j → ∀ a ∈ l, (slots[a]?).isSome = true := by
  induction l with
  | nil => intro i j _ a ha; cases ha
  | cons b l ih =>
    rintro i j ⟨rfl, hsome, hrest⟩ a ha
    rcases List.mem_cons.mp ha with rfl | ha
    · exact hsome
    · exact ih hrest a ha

theorem isSome_lt_length {slots : List (Slot T)} {a : Nat}
    (h : (slots[a]?).isSome = true) : a < slots.length := by
  by_contra hlt
  rw [List.getElem?_eq_none (Nat.le_of_not_lt hlt)] at h
  exact Bool.noConfusion h

/-- Build a `next`-chain over consecutive indices `[k, k+m)` whose links
are `j + 1`, with the last one (`j + 1 = c`) holding the sentinel. -/
theorem NextChain_consecutive {L : List (Slot T)} {c : Nat} :
    ∀ m k, k + m = c →
      (∀ j ∈ List.range' k m, (L[j]?).isSome = true ∧
        nextOf L j = if j + 1 = c then NONE else j + 1) →
      NextChain L (if m = 0 then NONE else k) (List.range' k m) := by
  intro m
  induction m with
  | zero => intro k _ _; simp [NextChain, NextSeg]
  | succ m ih =>
    intro k hkc h
    have hk : k ∈ List.range' k (m + 1) := by
      rw [List.range'_succ]; exact List.mem_cons_self _ _
    obtain ⟨hsome, hnext⟩ := h k hk
    simp only [Nat.succ_ne_zero, if_false]
    rw [List.range'_succ]
    refine ⟨rfl, hsome, ?_⟩
    rw [hnext]
    cases m with
    | zero =>
      have : k + 1 = c := by omega
      rw [if_pos this]
      simp [NextSeg]
    | succ m' =>
      have hne : ¬ (k + 1 = c) := by omega
      rw [if_neg hne]
      have := ih (k + 1) (by omega)
        (fun j hj => h j (by rw [List.range'_succ]; exact List.mem_cons_of_mem _ hj))
      simpa using this

theorem valsOf_congr {slots slots' : List (Slot T)} {l : List Nat}
    (h : ∀ k ∈ l, valAt slots' k = valAt slots k) :
    valsOf slots' l = valsOf slots l := by
  induction l with
  | nil => rfl
  | cons a l ih =>
    simp only [valsOf]
    rw [h a (List.mem_cons_self a l), ih (fun k hk => h k (List.mem_cons_of_mem a hk))]

theorem valsOf_append {slots : List (Slot T)} (l₁ l₂ : List Nat) :
    valsOf slots (l₁ ++ l₂) =
      match valsOf slots l₁, valsOf slots l₂ with
      | some v₁, some v₂ => some (v₁ ++ v₂)
      | _, _ => none := by
  induction l₁ with
  | nil =>
    simp only [List.nil_append, valsOf]
    cases valsOf slots l₂ <;> rfl
  | cons a l ih =>
    simp only [List.cons_append, valsOf, List.append_eq, ih]
    cases valAt slots a <;> cases valsOf slots l <;> cases valsOf slots l₂ <;> rfl

theorem valsOf_isSome {slots : List (Slot T)} {l : List Nat}
    (h : ∀ a ∈ l, (valAt slots a).isSome = true) :
    ∃ vs, valsOf slots l = some vs ∧ vs.length = l.length := by
  induction l with
  | nil => exact ⟨[], rfl, rfl⟩
  | cons a l ih =>
    obtain ⟨vs, hvs, hlen⟩ := ih (fun k hk => h k (List.mem_cons_of_mem a hk))
    obtain ⟨v, hv⟩ := Option.isSome_iff_exists.mp (h a (List.mem_cons_self a l))
    exact ⟨v :: vs, by simp [valsOf, hv, hvs], by simp [hlen]⟩

theorem getLastD_cons_mem (a d : Nat) (l : List Nat) : (a :: l).getLastD d ∈ a :: l := by
  induction l generalizing a with
  | nil => simp [List.getLastD]
  | cons b l ih => rw [List.getLastD_cons]; exact List.mem_cons_of_mem a (ih b)

/-! ### Facts every `Shape` yields -/

variable {s : LruSlab T} {ll fl : List Nat}

theorem Shape.nodup (hs : Shape s ll fl) : (ll ++ fl).Nodup :=
  hs.perm.symm.nodup (List.nodup_range _)

theorem Shape.mem_lt (hs : Shape s ll fl) {a : Nat} (ha : a ∈ ll ++ fl) :
    a < s.slots.length :=
  List.mem_range.mp (hs.perm.mem_iff.mp ha)

theorem Shape.ll_lt (hs : Shape s ll fl) {a : Nat} (ha : a ∈ ll) : a < s.slots.length :=
  hs.mem_lt (List.mem_append_left fl ha)

theorem Shape.fl_lt (hs : Shape s ll fl) {a : Nat} (ha : a ∈ fl) : a < s.slots.length :=
  hs.mem_lt (List.mem_append_right ll ha)

theorem Shape.disjoint (hs : Shape s ll fl) : ll.Disjoint fl :=
  List.disjoint_of_nodup_append hs.nodup

theorem Shape.mem_of_lt (hs : Shape s ll fl) {a : Nat} (ha : a < s.slots.length) :
    a ∈ ll ∨ a ∈ fl :=
  List.mem_append.mp (hs.perm.mem_iff.mpr (List.mem_range.mpr ha))

theorem Shape.head_eq (hs : Shape s ll fl) : s.head = ll.headD NONE := by
  cases ll with
  | nil => exact hs.next_ll
  | cons a l => rw [List.headD_cons]; exact hs.next_ll.1

theorem Shape.free_eq (hs : Shape s ll fl) : s.free = fl.headD NONE := by
  cases fl with
  | nil => exact hs.next_fl
  | cons a l => rw [List.headD_cons]; exact hs.next_fl.1

theorem Shape.head_none_iff (hs : Shape s ll fl) : s.head = NONE ↔ s.len = 0 := by
  rw [hs.len_eq, hs.head_eq]
  cases ll with
  | nil => simp [List.headD]
  | cons a l =>
    rw [List.headD_cons]
    have : a < NONE := Nat.lt_trans (hs.ll_lt (List.mem_cons_self a l)) hs.cap_lt
    simp [Nat.ne_of_lt this]

theorem Shape.tail_none_iff (hs : Shape s ll fl) : s.tail = NONE ↔ s.len = 0 := by
  rw [hs.len_eq, hs.tail_eq]
  cases ll with
  | nil => simp [List.getLastD]
  | cons a l =>
    have hmem : (a :: l).getLastD NONE ∈ a :: l := getLastD_cons_mem a NONE l
    have hlt : (a :: l).getLastD NONE < NONE := Nat.lt_trans (hs.ll_lt hmem) hs.cap_lt
    exact iff_of_false (Nat.ne_of_lt hlt) (by simp)

/-! ### The iterator walks the LRU chain -/

theorem collectSteps_chain {slots : List (Slot T)} {t : Nat} :
    ∀ (l : List Nat) (i : Nat), NextSeg slots i l NONE →
      (∀ a ∈ l, (valAt slots a).isSome = true) →
      Iter.collectSteps l.length ⟨slots, i, t, l.length⟩ = valsOf slots l := by
  intro l
  induction l with
  | nil => intro i _ _; rfl
  | cons a l ih =>
    intro i hseg hval
    obtain ⟨hi, hsome, hrest⟩ := hseg
    obtain ⟨sl, hsl⟩ := Option.isSome_iff_exists.mp hsome
    have hv : valAt slots a = sl.value := by unfold valAt; rw [hsl]
    obtain ⟨v, hvv⟩ := Option.isSome_iff_exists.mp (hval a (List.mem_cons_self a l))
    rw [hv] at hvv
    have hnext : nextOf slots a = sl.next := by unfold nextOf; rw [hsl]
    have step : Iter.next (⟨slots, i, t, l.length + 1⟩ : Iter T) =
        some (some (v, ⟨slots, sl.next, t, l.length⟩)) := by
      unfold Iter.next
      simp only [List.length_cons, Nat.succ_ne_zero, if_false, hi, hsl, hvv]
      rfl
    have hrec := ih (nextOf slots a) hrest (fun k hk => hval k (List.mem_cons_of_mem a hk))
    rw [hnext] at hrec
    simp only [List.length_cons, Iter.collectSteps, step, hrec, valsOf, hv, hvv]
    cases valsOf slots l <;> rfl

theorem iterList_shape (hs : Shape s ll fl) : iterList s = valsOf s.slots ll := by
  unfold iterList iter
  rw [hs.len_eq]
  exact collectSteps_chain ll s.head hs.next_ll hs.occ

/-! ### Construction establishes the invariant -/

theorem shape_with_capacity_raw (c : Nat) (hc : c < NONE) :
    Shape (with_capacity_raw T c) [] (List.range c) := by
  have hlen : (with_capacity_raw T c).slots.length = c := by
    simp [with_capacity_raw]
  have hget : ∀ j, j < c → (with_capacity_raw T c).slots[j]? =
      some { value := none, prev := NONE,
             next := if j + 1 = c then NONE else j + 1 } := by
    intro j hj
    simp [with_capacity_raw, List.getElem?_map, List.getElem?_range hj]
  refine ⟨?_, ?_, trivial, rfl, ?_, ?_, ?_, ?_, rfl⟩
  · rw [hlen]; exact hc
  · exact rfl
  · intro a ha; cases ha
  · have hchain := NextChain_consecutive (L := (with_capacity_raw T c).slots)
      (c := c) c 0 (by omega) ?_
    · rw [List.range_eq_range']
      have : (with_capacity_raw T c).free = if c = 0 then NONE else 0 := rfl
      rw [this]
      simpa using hchain
    · intro j hj
      have hjc : j < c := by
        obtain ⟨i, hi, rfl⟩ := List.mem_range'.mp hj
        omega
      constructor
      · rw [hget j hjc]; rfl
      · unfold nextOf; rw [hget j hjc]
  · intro a ha
    have hac : a < c := List.mem_range.mp ha
    unfold valAt; rw [hget a hac]
  · rw [hlen]; exact (List.nil_append _) ▸ List.Perm.refl _

/-! ### Pointwise effect of `List.set` on the observation functions -/

theorem getElem?_set_self {slots : List (Slot T)} {j : Nat} (x : Slot T)
    (hj : j < slots.length) : (slots.set j x)[j]? = some x :=
  List.getElem?_set_eq_of_lt x hj

theorem nextOf_set_self {slots : List (Slot T)} {j : Nat} (x : Slot T)
    (hj : j < slots.length) : nextOf (slots.set j x) j = x.next := by
  unfold nextOf; rw [getElem?_set_self x hj]

theorem nextOf_set_ne {slots : List (Slot T)} {j k : Nat} (x : Slot T)
    (hne : j ≠ k) : nextOf (slots.set j x) k = nextOf slots k := by
  unfold nextOf; rw [List.getElem?_set_ne hne]

theorem prevOf_set_self {slots : List (Slot T)} {j : Nat} (x : Slot T)
    (hj : j < slots.length) : prevOf (slots.set j x) j = x.prev := by
  unfold prevOf; rw [getElem?_set_self x hj]

theorem prevOf_set_ne {slots : List (Slot T)} {j k : Nat} (x : Slot T)
    (hne : j ≠ k) : prevOf (slots.set j x) k = prevOf slots k := by
  unfold prevOf; rw [List.getElem?_set_ne hne]

theorem valAt_set_self {slots : List (Slot T)} {j : Nat} (x : Slot T)
    (hj : j < slots.length) : valAt (slots.set j x) j = x.value := by
  unfold valAt; rw [getElem?_set_self x hj]

theorem valAt_set_ne {slots : List (Slot T)} {j k : Nat} (x : Slot T)
    (hne : j ≠ k) : valAt (slots.set j x) k = valAt slots k := by
  unfold valAt; rw [List.getElem?_set_ne hne]

theorem isSome_set {slots : List (Slot T)} (j k : Nat) (x : Slot T) :
    ((slots.set j x)[k]?).isSome = (slots[k]?).isSome := by
  rcases eq_or_ne j k with rfl | hne
  · rw [List.getElem?_set_self']
    cases slots[j]? <;> rfl
  · rw [List.getElem?_set_ne hne]

/-- A `next`-chain only reads presence and `next` links of its members. -/
theorem NextSeg_congr2 {slots slots' : List (Slot T)} {l : List Nat}
    (hsome : ∀ k ∈ l, (slots'[k]?).isSome = (slots[k]?).isSome)
    (hnext : ∀ k ∈ l, nextOf slots' k = nextOf slots k) :
    ∀ {i j : Nat}, NextSeg slots i l j → NextSeg slots' i l j := by
  induction l with
  | nil => intro i j hs; exact hs
  | cons a l ih =>
    intro i j hs
    obtain ⟨hi, hs_some, hrest⟩ := hs
    refine ⟨hi, ?_, ?_⟩
    · rw [hsome a (List.mem_cons_self a l)]; exact hs_some
    · rw [hnext a (List.mem_cons_self a l)]
      exact ih (fun k hk => hsome k (List.mem_cons_of_mem a hk))
        (fun k hk => hnext k (List.mem_cons_of_mem a hk)) hrest

theorem getLastD_append (xs ys : List Nat) (d : Nat) :
    (xs ++ ys).getLastD d = ys.getLastD (xs.getLastD d) := by
  induction xs generalizing d with
  | nil => rfl
  | cons x xs ih => rw [List.cons_append, List.getLastD_cons, List.getLastD_cons, ih]

theorem getLastD_irrel (b d d' : Nat) (l : List Nat) :
    (b :: l).getLastD d = (b :: l).getLastD d' := by
  rw [List.getLastD_cons, List.getLastD_cons]

theorem getLastD_concat (l : List Nat) (p d : Nat) :
    (l ++ [p]).getLastD d = p := by
  rw [getLastD_append]; rfl

/-! ### `unlink` on a shaped state -/

/-- Splicing an occupied slot `a` out of the LRU list `l1 ++ a :: l2`
leaves the chains describing `l1 ++ l2`, touches no payload, and leaves
every slot outside `l1 ++ l2` (including `a` itself) byte-identical. -/
theorem unlink_spec {s : LruSlab T} {l1 l2 fl : List Nat} {a : Nat}
    (hs : Shape s (l1 ++ a :: l2) fl) :
    ∃ s₁, unlink s a = some s₁ ∧
      s₁.free = s.free ∧ s₁.len = s.len ∧ s₁.slots.length = s.slots.length ∧
      NextChain s₁.slots s₁.head (l1 ++ l2) ∧
      PrevChain s₁.slots NONE (l1 ++ l2) ∧
      s₁.tail = (l1 ++ l2).getLastD NONE ∧
      (∀ k, valAt s₁.slots k = valAt s.slots k) ∧
      (∀ k, k ∉ l1 → k ∉ l2 → s₁.slots[k]? = s.slots[k]?) := by
  have hnodup_ll : (l1 ++ a :: l2).Nodup := hs.nodup.of_append_left
  obtain ⟨hnodup_l1, hnodup_al2, hdisj_l1⟩ := List.nodup_append.mp hnodup_ll
  obtain ⟨ha_l2, hnodup_l2⟩ := List.nodup_cons.mp hnodup_al2
  have ha_l1 : a ∉ l1 := fun h => hdisj_l1 h (List.mem_cons_self a l2)
  obtain ⟨k₀, hseg1, hseg2⟩ := NextSeg_append.mp hs.next_ll
  obtain ⟨hk₀, hsome_a, hseg_l2⟩ := hseg2
  rw [hk₀] at hseg1
  clear hk₀
  obtain ⟨sl, hsl⟩ := Option.isSome_iff_exists.mp hsome_a
  obtain ⟨hprev_l1, hprev_a, hprev_l2⟩ :
      PrevChain s.slots NONE l1 ∧ prevOf s.slots a = l1.getLastD NONE ∧
        PrevChain s.slots a l2 := by
    have h := PrevChain_append.mp hs.prev_ll
    exact ⟨h.1, h.2.1, h.2.2⟩
  have hsl_prev : sl.prev = l1.getLastD NONE := by
    have h : prevOf s.slots a = sl.prev := by unfold prevOf; rw [hsl]
    rw [← h]; exact hprev_a
  have hnext_a : nextOf s.slots a = sl.next := by unfold nextOf; rw [hsl]
  have htail : s.tail = l2.getLastD a := by
    rw [hs.tail_eq, getLastD_append, List.getLastD_cons]
  rcases List.eq_nil_or_concat l1 with rfl | ⟨l1', p, hl1⟩
  · -- `a` is the head: `prev == NONE`
    have hp : sl.prev = NONE := by rw [hsl_prev]; rfl
    cases l2 with
    | nil =>
      have hn : sl.next = NONE := by rw [← hnext_a]; exact hseg_l2
      refine ⟨{ s with head := NONE, tail := NONE }, ?_, rfl, rfl, rfl, ?_, trivial, rfl,
        fun k => rfl, fun k _ _ => rfl⟩
      · unfold unlink
        rw [hsl]
        simp only [hp, hn, ne_eq, not_true_eq_false, if_false, reduceIte]
      · exact rfl
    | cons b l2' =>
      obtain ⟨hb, hsome_b, hseg_l2'⟩ := hseg_l2
      have hn : sl.next = b := by rw [← hnext_a]; exact hb
      obtain ⟨Q, hQ⟩ := Option.isSome_iff_exists.mp hsome_b
      have hb_lt : b < s.slots.length := isSome_lt_length hsome_b
      have hb_none : b ≠ NONE := Nat.ne_of_lt (Nat.lt_trans hb_lt hs.cap_lt)
      obtain ⟨hb_l2', hnodup_l2'⟩ := List.nodup_cons.mp hnodup_l2
      refine ⟨{ s with head := b, slots := s.slots.set b { Q with prev := NONE } },
        ?_, rfl, rfl, List.length_set .., ?_, ?_, ?_, ?_, ?_⟩
      · unfold unlink
        rw [hsl]
        simp only [hp, hn, ne_eq, not_true_eq_false, if_false, reduceIte]
        rw [if_pos hb_none]
        simp only [hQ]
      · -- NextChain from b over [] ++ b :: l2'
        rw [List.nil_append]
        refine ⟨rfl, by rw [isSome_set]; exact hsome_b, ?_⟩
        rw [nextOf_set_self _ hb_lt]
        show NextSeg _ Q.next l2' NONE
        have hqnext : nextOf s.slots b = Q.next := by unfold nextOf; rw [hQ]
        rw [← hqnext]
        refine NextSeg_congr2 (fun k _ => isSome_set ..) (fun k hk => ?_) hseg_l2'
        exact nextOf_set_ne _ (fun hbk => hb_l2' (by rw [hbk]; exact hk))
      · -- PrevChain NONE (b :: l2')
        rw [List.nil_append]
        refine ⟨prevOf_set_self _ hb_lt, ?_⟩
        refine PrevChain_congr (fun k hk => ?_) hprev_l2.2
        exact prevOf_set_ne _ (fun hbk => hb_l2' (by rw [hbk]; exact hk))
      · rw [htail, List.nil_append]
        rw [List.getLastD_cons, List.getLastD_cons]
      · intro k
        rcases eq_or_ne b k with rfl | hne
        · rw [valAt_set_self _ hb_lt]; unfold valAt; rw [hQ]
        · exact valAt_set_ne _ hne
      · intro k _ hk2
        exact List.getElem?_set_ne
          (fun hbk => hk2 (by rw [← hbk]; exact List.mem_cons_self b l2'))
  · -- `a` has a predecessor `p = getLast l1`
    rw [List.concat_eq_append] at hl1
    subst hl1
    have hp : sl.prev = p := by rw [hsl_prev, getLastD_concat]
    obtain ⟨k₁, hseg_l1', hseg_p⟩ := NextSeg_append.mp hseg1
    obtain ⟨hk₁, hsome_p, hseg_pa⟩ := hseg_p
    rw [hk₁] at hseg_l1'
    clear hk₁
    obtain ⟨P, hP⟩ := Option.isSome_iff_exists.mp hsome_p
    have hp_lt : p < s.slots.length := isSome_lt_length hsome_p
    have hp_none : p ≠ NONE := Nat.ne_of_lt (Nat.lt_trans hp_lt hs.cap_lt)
    have hp_mem_l1 : p ∈ l1' ++ [p] := List.mem_append_right _ (List.mem_cons_self p [])
    have hp_l1' : p ∉ l1' := by
      obtain ⟨h1, h2, hd⟩ := List.nodup_append.mp hnodup_l1
      exact fun h => hd h (List.mem_cons_self p [])
    have hp_a : p ≠ a := fun h => ha_l1 (by rw [← h]; exact hp_mem_l1)
    have hp_l2 : p ∉ l2 := fun h => hdisj_l1 hp_mem_l1 (List.mem_cons_of_mem a h)
    have hnext_pa : nextOf s.slots p = a := hseg_pa
    cases l2 with
    | nil =>
      have hn : sl.next = NONE := by rw [← hnext_a]; exact hseg_l2
      refine ⟨{ s with slots := s.slots.set p { P with next := NONE }, tail := p },
        ?_, rfl, rfl, List.length_set .., ?_, ?_, ?_, ?_, ?_⟩
      · unfold unlink
        rw [hsl]
        simp only [hp, hn, ne_eq, not_true_eq_false, if_false, reduceIte]
        rw [if_pos hp_none]
        simp only [hP]
      · -- NextChain head (l1' ++ [p] ++ [])
        rw [List.append_nil]
        refine NextSeg_append.mpr ⟨p, ?_, rfl, by rw [isSome_set]; exact hsome_p, ?_⟩
        · refine NextSeg_congr2 (fun k _ => isSome_set ..) (fun k hk => ?_) hseg_l1'
          exact nextOf_set_ne _ (fun hpk => hp_l1' (by rw [hpk]; exact hk))
        · rw [nextOf_set_self _ hp_lt]
          exact rfl
      · rw [List.append_nil]
        refine PrevChain_congr (fun k _ => ?_) hprev_l1
        rcases eq_or_ne p k with rfl | hne
        · rw [prevOf_set_self _ hp_lt]; unfold prevOf; rw [hP]
        · exact prevOf_set_ne _ hne
      · rw [List.append_nil, getLastD_concat]
      · intro k
        rcases eq_or_ne p k with rfl | hne
        · rw [valAt_set_self _ hp_lt]; unfold valAt; rw [hP]
        · exact valAt_set_ne _ hne
      · intro k hk1 _
        exact List.getElem?_set_ne
          (fun hpk => hk1 (by rw [← hpk]; exact hp_mem_l1))
    | cons b l2' =>
      obtain ⟨hb, hsome_b, hseg_l2'⟩ := hseg_l2
      have hn : sl.next = b := by rw [← hnext_a]; exact hb
      obtain ⟨Q, hQ⟩ := Option.isSome_iff_exists.mp hsome_b
      have hb_lt : b < s.slots.length := isSome_lt_length hsome_b
      have hb_none : b ≠ NONE := Nat.ne_of_lt (Nat.lt_trans hb_lt hs.cap_lt)
      obtain ⟨hb_l2', hnodup_l2'⟩ := List.nodup_cons.mp hnodup_l2
      have hb_mem_l2 : b ∈ b :: l2' := List.mem_cons_self b l2'
      have hb_p : b ≠ p := fun h => hp_l2 (by rw [← h]; exact hb_mem_l2)
      have hQ1 : (s.slots.set p { P with next := b })[b]? = some Q := by
        rw [List.getElem?_set_ne (fun h => hb_p h.symm)]; exact hQ
      have hset_frame : ∀ k, k ≠ p → k ≠ b →
          ((s.slots.set p { P with next := b }).set b { Q with prev := p })[k]? =
            s.slots[k]? := by
        intro k hkp hkb
        rw [List.getElem?_set_ne (fun h => hkb h.symm),
          List.getElem?_set_ne (fun h => hkp h.symm)]
      have hnext_frame : ∀ k, k ≠ p →
          nextOf ((s.slots.set p { P with next := b }).set b { Q with prev := p }) k =
            nextOf s.slots k := by
        intro k hkp
        rcases eq_or_ne k b with rfl | hkb
        · rw [nextOf_set_self _ (by rw [List.length_set]; exact hb_lt)]
          unfold nextOf; rw [hQ]
        · unfold nextOf; rw [hset_frame k hkp hkb]
      have hsome_frame : ∀ (k : Nat),
          (((s.slots.set p { P with next := b }).set b { Q with prev := p })[k]?).isSome =
            (s.slots[k]?).isSome := by
        intro k; rw [isSome_set, isSome_set]
      refine ⟨{ s with slots :=
          (s.slots.set p { P with next := b }).set b { Q with prev := p } },
        ?_, rfl, rfl, by rw [List.length_set, List.length_set], ?_, ?_, ?_, ?_, ?_⟩
      · unfold unlink
        rw [hsl]
        simp only [hp, hn, ne_eq, not_true_eq_false, if_false, reduceIte]
        rw [if_pos hp_none]
        simp only [hP]
        rw [if_pos hb_none]
        simp only [hQ1]
      · -- NextChain head ((l1' ++ [p]) ++ b :: l2')
        refine NextSeg_append.mpr ⟨b, ?_, ?_⟩
        · refine NextSeg_append.mpr ⟨p, ?_, rfl, by rw [hsome_frame]; exact hsome_p, ?_⟩
          · refine NextSeg_congr2 (fun k _ => hsome_frame k) (fun k hk => ?_) hseg_l1'
            exact hnext_frame k (fun hpk => hp_l1' (by rw [← hpk]; exact hk))
          · rw [nextOf_set_ne _ hb_p, nextOf_set_self _ hp_lt]
            exact rfl
        · refine ⟨rfl, by rw [hsome_frame]; exact hsome_b, ?_⟩
          have hqnext : nextOf ((s.slots.set p { P with next := b }).set b
              { Q with prev := p }) b = nextOf s.slots b := by
            rw [nextOf_set_self _ (by rw [List.length_set]; exact hb_lt)]
            unfold nextOf; rw [hQ]
          rw [hqnext]
          refine NextSeg_congr2 (fun k _ => hsome_frame k) (fun k hk => ?_) hseg_l2'
          exact hnext_frame k
            (fun hpk => hp_l2 (by rw [← hpk]; exact List.mem_cons_of_mem b hk))
      · -- PrevChain NONE ((l1' ++ [p]) ++ b :: l2')
        have hprev_frame : ∀ k, k ≠ b →
            prevOf ((s.slots.set p { P with next := b }).set b { Q with prev := p }) k =
              prevOf s.slots k := by
          intro k hkb
          rw [prevOf_set_ne _ (fun h => hkb h.symm)]
          rcases eq_or_ne k p with rfl | hkp
          · rw [prevOf_set_self _ hp_lt]; unfold prevOf; rw [hP]
          · rw [prevOf_set_ne _ (fun h => hkp h.symm)]
        refine PrevChain_append.mpr ⟨?_, ?_⟩
        · refine PrevChain_congr (fun k hk => ?_) hprev_l1
          exact hprev_frame k
            (fun hkb => hdisj_l1 hk (by rw [hkb]; exact List.mem_cons_of_mem a hb_mem_l2))
        · rw [getLastD_concat]
          refine ⟨?_, ?_⟩
          · rw [prevOf_set_self _ (by rw [List.length_set]; exact hb_lt)]
          · refine PrevChain_congr (fun k hk => ?_) hprev_l2.2
            exact hprev_frame k (fun hkb => hb_l2' (by rw [← hkb]; exact hk))
      · rw [htail, getLastD_append, List.getLastD_cons, List.getLastD_cons]
      · intro k
        rcases eq_or_ne k b with rfl | hkb
        · rw [valAt_set_self _ (by rw [List.length_set]; exact hb_lt)]
          unfold valAt; rw [hQ]
        · rw [valAt_set_ne _ (fun h => hkb h.symm)]
          rcases eq_or_ne k p with rfl | hkp
          · rw [valAt_set_self _ hp_lt]; unfold valAt; rw [hP]
          · rw [valAt_set_ne _ (fun h => hkp h.symm)]
      · intro k hk1 hk2
        exact hset_frame k (fun hkp => hk1 (by rw [hkp]; exact hp_mem_l1))
          (fun hkb => hk2 (by rw [hkb]; exact hb_mem_l2))

/-! ### `link_at_head` on a well-formed LRU list -/

/-- Linking a fresh in-bounds slot `a` at the head of a list described by
`m` produces the list `a :: m`, touching no payload and no slot outside
`{a} ∪ m`. -/
theorem link_at_head_spec {t : LruSlab T} {m : List Nat} {a : Nat}
    (hlt : t.slots.length < NONE)
    (hchain : NextChain t.slots t.head m) (hprev : PrevChain t.slots NONE m)
    (htail : t.tail = m.getLastD NONE) (hnodup : m.Nodup)
    (ha : a < t.slots.length) (hmem : a ∉ m) :
    ∃ t', link_at_head t a = some t' ∧
      t'.head = a ∧ t'.tail = (a :: m).getLastD NONE ∧
      t'.free = t.free ∧ t'.len = t.len ∧ t'.slots.length = t.slots.length ∧
      NextChain t'.slots a (a :: m) ∧
      PrevChain t'.slots NONE (a :: m) ∧
      (∀ k, valAt t'.slots k = valAt t.slots k) ∧
      (∀ k, k ≠ a → k ∉ m → t'.slots[k]? = t.slots[k]?) := by
  have hsome_a : (t.slots[a]?).isSome = true := by
    rw [List.getElem?_eq_getElem ha]; rfl
  obtain ⟨sl, hsl⟩ := Option.isSome_iff_exists.mp hsome_a
  cases m with
  | nil =>
    have hhead : t.head = NONE := hchain
    refine ⟨{ t with
        slots := t.slots.set a { sl with next := NONE, prev := NONE }
        tail := a
        head := a }, ?_, rfl, rfl, rfl, rfl, List.length_set .., ?_, ?_, ?_, ?_⟩
    · unfold link_at_head
      rw [hsl]
      simp only [hhead, reduceIte]
    · exact ⟨rfl, by rw [isSome_set]; exact hsome_a,
        by rw [nextOf_set_self _ ha]; exact rfl⟩
    · exact ⟨by rw [prevOf_set_self _ ha], trivial⟩
    · intro k
      rcases eq_or_ne a k with rfl | hne
      · rw [valAt_set_self _ ha]; unfold valAt; rw [hsl]
      · exact valAt_set_ne _ hne
    · intro k hk _
      exact List.getElem?_set_ne (fun h => hk h.symm)
  | cons b m' =>
    obtain ⟨hhead, hsome_b, hseg_m'⟩ := hchain
    have hb_lt : b < t.slots.length := isSome_lt_length hsome_b
    have hb_none : t.head ≠ NONE := by
      rw [hhead]; exact Nat.ne_of_lt (Nat.lt_trans hb_lt hlt)
    obtain ⟨B, hB⟩ := Option.isSome_iff_exists.mp hsome_b
    have hb_a : b ≠ a := fun h => hmem (by rw [← h]; exact List.mem_cons_self b m')
    obtain ⟨hb_m', hnodup_m'⟩ := List.nodup_cons.mp hnodup
    have ha_m' : a ∉ m' := fun h => hmem (List.mem_cons_of_mem b h)
    have hB1 : (t.slots.set a { sl with next := b })[b]? = some B := by
      rw [List.getElem?_set_ne (fun h => hb_a h.symm)]; exact hB
    have hA2 : ((t.slots.set a { sl with next := b }).set b { B with prev := a })[a]? =
        some { sl with next := b } := by
      rw [List.getElem?_set_ne hb_a, getElem?_set_self _ ha]
    have hframe : ∀ k, k ≠ a → k ≠ b →
        (((t.slots.set a { sl with next := b }).set b { B with prev := a }).set a
          { value := sl.value, next := b, prev := NONE })[k]? = t.slots[k]? := by
      intro k hka hkb
      rw [List.getElem?_set_ne (fun h => hka h.symm),
        List.getElem?_set_ne (fun h => hkb h.symm),
        List.getElem?_set_ne (fun h => hka h.symm)]
    have hlen3 : ((t.slots.set a { sl with next := b }).set b { B with prev := a }).length =
        t.slots.length := by rw [List.length_set, List.length_set]
    have hget_a : (((t.slots.set a { sl with next := b }).set b { B with prev := a }).set a
        { value := sl.value, next := b, prev := NONE })[a]? =
        some { value := sl.value, next := b, prev := NONE } :=
      getElem?_set_self _ (by rw [hlen3]; exact ha)
    have hget_b : (((t.slots.set a { sl with next := b }).set b { B with prev := a }).set a
        { value := sl.value, next := b, prev := NONE })[b]? = some { B with prev := a } := by
      rw [List.getElem?_set_ne hb_a.symm,
        getElem?_set_self _ (by rw [List.length_set]; exact hb_lt)]
    have hsome_frame : ∀ (k : Nat),
        ((((t.slots.set a { sl with next := b }).set b { B with prev := a }).set a
          { value := sl.value, next := b, prev := NONE })[k]?).isSome =
          (t.slots[k]?).isSome := by
      intro k; rw [isSome_set, isSome_set, isSome_set]
    refine ⟨{ t with
        slots := ((t.slots.set a { sl with next := b }).set b { B with prev := a }).set a
          { value := sl.value, next := b, prev := NONE }
        head := a },
      ?_, rfl, ?_, rfl, rfl, by rw [List.length_set, hlen3], ?_, ?_, ?_, ?_⟩
    · unfold link_at_head
      rw [hsl]
      simp only [if_neg hb_none, hhead]
      simp only [hB1, hA2]
      rw [if_neg (Nat.ne_of_lt (Nat.lt_trans hb_lt hlt))]
    · rw [htail, List.getLastD_cons, List.getLastD_cons, List.getLastD_cons]
    · -- NextChain a (a :: b :: m')
      refine ⟨rfl, by rw [hsome_frame]; exact hsome_a, ?_⟩
      have hna : nextOf (((t.slots.set a { sl with next := b }).set b
          { B with prev := a }).set a { value := sl.value, next := b, prev := NONE }) a = b := by
        unfold nextOf; rw [hget_a]
      rw [hna]
      refine ⟨rfl, by rw [hsome_frame]; exact hsome_b, ?_⟩
      have hnb : nextOf (((t.slots.set a { sl with next := b }).set b
          { B with prev := a }).set a { value := sl.value, next := b, prev := NONE }) b =
          nextOf t.slots b := by
        unfold nextOf; rw [hget_b, hB]
      rw [hnb]
      refine NextSeg_congr2 (fun k _ => hsome_frame k) (fun k hk => ?_) hseg_m'
      have hka : k ≠ a := fun h => ha_m' (by rw [← h]; exact hk)
      have hkb : k ≠ b := fun h => hb_m' (by rw [← h]; exact hk)
      unfold nextOf; rw [hframe k hka hkb]
    · -- PrevChain NONE (a :: b :: m')
      refine ⟨by unfold prevOf; rw [hget_a], by unfold prevOf; rw [hget_b], ?_⟩
      refine PrevChain_congr (fun k hk => ?_) hprev.2
      have hka : k ≠ a := fun h => ha_m' (by rw [← h]; exact hk)
      have hkb : k ≠ b := fun h => hb_m' (by rw [← h]; exact hk)
      unfold prevOf; rw [hframe k hka hkb]
    · intro k
      rcases eq_or_ne k a with rfl | hka
      · rw [show valAt _ k = sl.value by unfold valAt; rw [hget_a]]
        unfold valAt; rw [hsl]
      · rcases eq_or_ne k b with rfl | hkb
        · rw [show valAt _ k = B.value by unfold valAt; rw [hget_b]]
          unfold valAt; rw [hB]
        · unfold valAt; rw [hframe k hka hkb]
    · intro k hka hkm
      exact hframe k hka (fun h => hkm (by rw [h]; exact List.mem_cons_self b m'))

/-! ### `remove` on an occupied slot -/

theorem valAt_isSome_elim {slots : List (Slot T)} {a : Nat}
    (h : (valAt slots a).isSome = true) :
    ∃ sl v, slots[a]? = some sl ∧ sl.value = some v ∧ valAt slots a = some v := by
  unfold valAt at h ⊢
  cases hsl : slots[a]? with
  | none => rw [hsl] at h; exact absurd h (by simp)
  | some sl =>
    rw [hsl] at h
    obtain ⟨v, hv⟩ := Option.isSome_iff_exists.mp h
    exact ⟨sl, v, rfl, hv, hv⟩

/-- Removing the occupied slot `a` from a shaped state succeeds, returns
the stored value, splices `a` out of the LRU list and pushes it onto the
free list. -/
theorem remove_spec {s : LruSlab T} {l1 l2 fl : List Nat} {a : Nat}
    (hs : Shape s (l1 ++ a :: l2) fl) :
    ∃ v s', remove s a = some (v, s') ∧
      valAt s.slots a = some v ∧
      Shape s' (l1 ++ l2) (a :: fl) ∧
      (∀ k, k ≠ a → valAt s'.slots k = valAt s.slots k) ∧
      valAt s'.slots a = none ∧
      s'.len = s.len - 1 ∧ s'.slots.length = s.slots.length ∧ s'.free = a := by
  have ha_mem : a ∈ l1 ++ a :: l2 := List.mem_append_right l1 (List.mem_cons_self a l2)
  have hnodup_ll : (l1 ++ a :: l2).Nodup := hs.nodup.of_append_left
  obtain ⟨hnodup_l1, hnodup_al2, hdisj_l1⟩ := List.nodup_append.mp hnodup_ll
  obtain ⟨ha_l2, hnodup_l2⟩ := List.nodup_cons.mp hnodup_al2
  have ha_l1 : a ∉ l1 := fun h => hdisj_l1 h (List.mem_cons_self a l2)
  have hdisj : (l1 ++ a :: l2).Disjoint fl := hs.disjoint
  have ha_fl : a ∉ fl := fun h => hdisj ha_mem h
  obtain ⟨sl, v, hsl, hslv, hvala⟩ := valAt_isSome_elim (hs.occ a ha_mem)
  have ha_lt : a < s.slots.length := isSome_lt_length (by rw [hsl]; rfl)
  obtain ⟨s₁, hul, hfree, hlen, hslen, hchain, hprev, htail, hval, hframe⟩ := unlink_spec hs
  have hsa : s₁.slots[a]? = some sl := by rw [hframe a ha_l1 ha_l2]; exact hsl
  have hfl_frame : ∀ k ∈ fl, s₁.slots[k]? = s.slots[k]? := by
    intro k hk
    exact hframe k (fun h => hdisj (List.mem_append_left _ h) hk)
      (fun h => hdisj (List.mem_append_right _ (List.mem_cons_of_mem a h)) hk)
  refine ⟨v, { s₁ with
      slots := s₁.slots.set a { value := none, next := s₁.free, prev := NONE }
      free := a
      len := s₁.len - 1 }, ?_, hvala, ?_, ?_, ?_, by rw [hlen],
    by rw [List.length_set]; exact hslen, rfl⟩
  · unfold remove
    rw [hul]
    simp only [hsa, hslv]
  · -- the Shape of the result
    have hset_ne : ∀ k, k ≠ a →
        (s₁.slots.set a { value := none, next := s₁.free, prev := NONE })[k]? =
          s₁.slots[k]? := by
      intro k hk
      exact List.getElem?_set_ne (fun h => hk h.symm)
    refine ⟨?_, ?_, ?_, ?_, ?_, ?_, ?_, ?_, ?_⟩
    · rw [List.length_set, hslen]; exact hs.cap_lt
    · -- LRU chain survives the write at `a ∉ l1 ++ l2`
      refine NextSeg_congr2 (fun k _ => isSome_set ..) (fun k hk => ?_) hchain
      refine nextOf_set_ne _ (fun h => ?_)
      rw [← h] at hk
      rcases List.mem_append.mp hk with h1 | h2
      · exact ha_l1 h1
      · exact ha_l2 h2
    · refine PrevChain_congr (fun k hk => ?_) hprev
      refine prevOf_set_ne _ (fun h => ?_)
      rw [← h] at hk
      rcases List.mem_append.mp hk with h1 | h2
      · exact ha_l1 h1
      · exact ha_l2 h2
    · exact htail
    · intro k hk
      have hka : k ≠ a := fun h => by
        rw [h] at hk
        rcases List.mem_append.mp hk with h1 | h2
        · exact ha_l1 h1
        · exact ha_l2 h2
      have : valAt (s₁.slots.set a { value := none, next := s₁.free, prev := NONE }) k =
          valAt s₁.slots k := valAt_set_ne _ (fun h => hka h.symm)
      rw [this, hval]
      refine hs.occ k ?_
      rcases List.mem_append.mp hk with h1 | h2
      · exact List.mem_append_left _ h1
      · exact List.mem_append_right _ (List.mem_cons_of_mem a h2)
    · -- free chain gains `a` at its head
      refine ⟨rfl, ?_, ?_⟩
      · rw [isSome_set]; rw [hsa]; rfl
      · rw [nextOf_set_self _ (by rw [hslen]; exact ha_lt)]
        show NextSeg _ s₁.free fl NONE
        rw [hfree]
        refine NextSeg_congr2 (fun k hk => ?_) (fun k hk => ?_) hs.next_fl
        · rw [isSome_set]
          rw [hfl_frame k hk]
        · have hka : a ≠ k := fun h => ha_fl (by rw [h]; exact hk)
          rw [nextOf_set_ne _ hka]
          unfold nextOf
          rw [hfl_frame k hk]
    · intro k hk
      rcases List.mem_cons.mp hk with rfl | hkfl
      · rw [valAt_set_self _ (by rw [hslen]; exact ha_lt)]
      · have hka : a ≠ k := fun h => ha_fl (by rw [h]; exact hkfl)
        rw [valAt_set_ne _ hka]
        rw [hval]
        exact hs.free_val k hkfl
    · -- permutation bookkeeping
      rw [List.length_set, hslen]
      refine List.Perm.trans ?_ hs.perm
      have hstep : ((l1 ++ l2) ++ a :: fl).Perm (l1 ++ (a :: (l2 ++ fl))) := by
        rw [List.append_assoc]
        exact List.Perm.append_left l1 List.perm_middle
      have heq : (l1 ++ a :: l2) ++ fl = l1 ++ (a :: (l2 ++ fl)) := by
        rw [List.append_assoc]
        rfl
      rw [heq]
      exact hstep
    · show s₁.len - 1 = (l1 ++ l2).length
      rw [hlen, hs.len_eq]
      simp only [List.length_append, List.length_cons]
      omega
  · intro k hk
    rw [valAt_set_ne _ (fun h => hk h.symm), hval]
  · rw [valAt_set_self _ (by rw [hslen]; exact ha_lt)]

/-! ### `get_mut` (freshen) on an occupied slot -/

/-- `get_mut` on the occupied slot `a` moves it to the front of the LRU
list, keeps every payload, and is a complete no-op on the state when `a`
is already the head (`l1 = []`). -/
theorem get_mut_spec {s : LruSlab T} {l1 l2 fl : List Nat} {a : Nat}
    (hs : Shape s (l1 ++ a :: l2) fl) :
    ∃ v s', get_mut s a = some (v, s') ∧
      valAt s.slots a = some v ∧
      Shape s' (a :: (l1 ++ l2)) fl ∧
      (∀ k, valAt s'.slots k = valAt s.slots k) ∧
      s'.len = s.len ∧ s'.slots.length = s.slots.length ∧
      (l1 = [] → s' = s) := by
  have ha_mem : a ∈ l1 ++ a :: l2 := List.mem_append_right l1 (List.mem_cons_self a l2)
  have hnodup_ll : (l1 ++ a :: l2).Nodup := hs.nodup.of_append_left
  obtain ⟨hnodup_l1, hnodup_al2, hdisj_l1⟩ := List.nodup_append.mp hnodup_ll
  obtain ⟨ha_l2, hnodup_l2⟩ := List.nodup_cons.mp hnodup_al2
  have ha_l1 : a ∉ l1 := fun h => hdisj_l1 h (List.mem_cons_self a l2)
  have hdisj : (l1 ++ a :: l2).Disjoint fl := hs.disjoint
  have ha_fl : a ∉ fl := fun h => hdisj ha_mem h
  obtain ⟨sl, v, hsl, hslv, hvala⟩ := valAt_isSome_elim (hs.occ a ha_mem)
  have ha_lt : a < s.slots.length := isSome_lt_length (by rw [hsl]; rfl)
  have hprev_a : prevOf s.slots a = l1.getLastD NONE :=
    (PrevChain_append.mp hs.prev_ll).2.1
  have hsl_prev : sl.prev = l1.getLastD NONE := by
    have h : prevOf s.slots a = sl.prev := by unfold prevOf; rw [hsl]
    rw [← h]; exact hprev_a
  rcases List.eq_nil_or_concat l1 with rfl | ⟨l1', p, hl1⟩
  · -- already at the head: a no-op
    have hp : sl.prev = NONE := by rw [hsl_prev]; rfl
    have hfr : freshen s a = some s := by
      unfold freshen
      rw [hsl]
      simp only [hp, reduceIte]
    refine ⟨v, s, ?_, hvala, hs, fun k => rfl, rfl, rfl, fun _ => rfl⟩
    unfold get_mut
    rw [hfr]
    simp only [hsl, hslv]
  · rw [List.concat_eq_append] at hl1
    subst hl1
    have hp : sl.prev = p := by rw [hsl_prev, getLastD_concat]
    have hp_mem : p ∈ l1' ++ [p] := List.mem_append_right _ (List.mem_cons_self p [])
    have hp_lt : p < s.slots.length := hs.ll_lt (List.mem_append_left _ hp_mem)
    have hp_none : sl.prev ≠ NONE := by
      rw [hp]; exact Nat.ne_of_lt (Nat.lt_trans hp_lt hs.cap_lt)
    obtain ⟨s₁, hul, hfree, hlen, hslen, hchain, hprev, htail, hval, hframe⟩ := unlink_spec hs
    have hnodup_rest : ((l1' ++ [p]) ++ l2).Nodup := by
      refine List.Nodup.sublist ?_ hnodup_ll
      exact List.Sublist.append_left (List.sublist_cons_self a l2) _
    have hmem_rest : a ∉ (l1' ++ [p]) ++ l2 := fun h => by
      rcases List.mem_append.mp h with h1 | h2
      · exact ha_l1 h1
      · exact ha_l2 h2
    obtain ⟨t', hlink, hthead, httail, htfree, htlen, htslen, htchain, htprev, htval,
      htframe⟩ := link_at_head_spec (by rw [hslen]; exact hs.cap_lt) hchain hprev htail
        hnodup_rest (by rw [hslen]; exact ha_lt) hmem_rest
    have hfr : freshen s a = some t' := by
      unfold freshen
      rw [hsl]
      simp only [if_neg hp_none, hul]
      exact hlink
    have hvalt : ∀ k, valAt t'.slots k = valAt s.slots k := fun k => by
      rw [htval k, hval k]
    obtain ⟨sl', v', hsl', hsl'v, hvala'⟩ := valAt_isSome_elim
      (show (valAt t'.slots a).isSome = true by rw [hvalt a, hvala]; rfl)
    have hv' : v' = v := by
      have h0 := hvala'.symm.trans (hvalt a)
      rw [hvala] at h0
      exact Option.some_inj.mp h0
    rw [hv'] at hsl'v
    have hfl_frame : ∀ k ∈ fl, t'.slots[k]? = s.slots[k]? := by
      intro k hk
      rw [htframe k (fun h => ha_fl (h ▸ hk)) (fun h => hdisj ?_ hk)]
      · exact hframe k (fun h => hdisj (List.mem_append_left _ h) hk)
          (fun h => hdisj (List.mem_append_right _ (List.mem_cons_of_mem a h)) hk)
      · rcases List.mem_append.mp h with h1 | h2
        · exact List.mem_append_left _ h1
        · exact List.mem_append_right _ (List.mem_cons_of_mem a h2)
    refine ⟨v, t', ?_, hvala, ?_, hvalt, by rw [htlen, hlen], by rw [htslen, hslen],
      fun h => absurd h (by simp)⟩
    · unfold get_mut
      rw [hfr]
      simp only [hsl', hsl'v]
    · refine ⟨by rw [htslen, hslen]; exact hs.cap_lt, ?_, htprev, httail, ?_, ?_, ?_, ?_, ?_⟩
      · rw [hthead]; exact htchain
      · intro k hk
        rw [hvalt k]
        refine hs.occ k ?_
        rcases List.mem_cons.mp hk with rfl | hk2
        · exact ha_mem
        · rcases List.mem_append.mp hk2 with h1 | h2
          · exact List.mem_append_left _ h1
          · exact List.mem_append_right _ (List.mem_cons_of_mem a h2)
      · rw [htfree, hfree]
        refine NextSeg_congr2 (fun k hk => ?_) (fun k hk => ?_) hs.next_fl
        · rw [hfl_frame k hk]
        · unfold nextOf; rw [hfl_frame k hk]
      · intro k hk
        rw [hvalt k]
        exact hs.free_val k hk
      · rw [htslen, hslen]
        refine List.Perm.trans ?_ hs.perm
        exact List.Perm.append_right fl List.perm_middle.symm
      · rw [htlen, hlen, hs.len_eq]
        simp only [List.length_append, List.length_cons]
        omega

/-! ### Arithmetic of the growth policy -/

theorem grow_cap_eq_of_small {n : Nat} (h : n < 2 ^ 31) :
    (2 * max n 2) % U32 = 2 * max n 2 := by
  apply Nat.mod_eq_of_lt
  unfold U32
  rcases Nat.le_total n 2 with h2 | h2
  · rw [Nat.max_eq_right h2]; norm_num
  · rw [Nat.max_eq_left h2]
    have h31 : (2:Nat) ^ 31 = 2147483648 := by norm_num
    omega

theorem grow_cap_le_of_big {n : Nat} (h : 2 ^ 31 ≤ n) : (2 * max n 2) % U32 ≤ n := by
  have hmax : max n 2 = n := Nat.max_eq_left (le_trans (by norm_num) h)
  rw [hmax]
  have h31 : (2:Nat) ^ 31 = 2147483648 := by norm_num
  rcases Nat.lt_or_ge n U32 with hlt | hge
  · unfold U32 at hlt ⊢
    omega
  · have hmod := Nat.mod_lt (2 * n) (show 0 < U32 by unfold U32; norm_num)
    omega

theorem grow_cap_ge {n : Nat} : n + 2 ≤ 2 * max n 2 ∨ 2 ^ 31 ≤ n := by
  rcases Nat.lt_or_ge n (2 ^ 31) with h | h
  · left
    rcases Nat.le_total n 2 with h2 | h2
    · rw [Nat.max_eq_right h2]; omega
    · rw [Nat.max_eq_left h2]; omega
  · right; exact h

theorem grow_cap_lt_NONE {n : Nat} (h : n < 2 ^ 31) : 2 * max n 2 < NONE := by
  unfold NONE
  have h31 : (2:Nat) ^ 31 = 2147483648 := by norm_num
  rcases Nat.le_total n 2 with h2 | h2
  · rw [Nat.max_eq_right h2]; norm_num
  · rw [Nat.max_eq_left h2]; omega

/-! ### Pointwise description of `grow` -/

theorem grow_slots (s : LruSlab T) : (grow s).slots =
    s.slots ++ (List.range' s.slots.length
        ((2 * max s.slots.length 2) % U32 - s.slots.length)).map
      (fun n =>
        { value := none
          prev := NONE
          next := if n + 1 = (2 * max s.slots.length 2) % U32 then NONE else n + 1 }) := rfl

theorem grow_free (s : LruSlab T) : (grow s).free = s.slots.length + 1 := rfl

theorem grow_head (s : LruSlab T) : (grow s).head = s.head := rfl

theorem grow_tail (s : LruSlab T) : (grow s).tail = s.tail := rfl

theorem grow_len (s : LruSlab T) : (grow s).len = s.len := rfl

theorem grow_length (s : LruSlab T) : (grow s).slots.length =
    s.slots.length + ((2 * max s.slots.length 2) % U32 - s.slots.length) := by
  rw [grow_slots, List.length_append, List.length_map, List.length_range']

theorem grow_slots_lo {s : LruSlab T} {k : Nat} (hk : k < s.slots.length) :
    (grow s).slots[k]? = s.slots[k]? := by
  rw [grow_slots, List.getElem?_append, if_pos hk]

theorem grow_slots_hi {s : LruSlab T} {k : Nat} (hn : s.slots.length ≤ k)
    (hk : k < s.slots.length + ((2 * max s.slots.length 2) % U32 - s.slots.length)) :
    (grow s).slots[k]? = some
      { value := none
        prev := NONE
        next := if k + 1 = (2 * max s.slots.length 2) % U32 then NONE else k + 1 } := by
  rw [grow_slots, List.getElem?_append_right hn]
  rw [List.getElem?_map, List.getElem?_range' _ _ (by omega)]
  have harith : s.slots.length + 1 * (k - s.slots.length) = k := by omega
  rw [harith]
  rfl

/-! ### `insert` when the free list is non-empty -/

theorem insert_spec_alloc {s : LruSlab T} {ll fl' : List Nat} {c : Nat}
    (hs : Shape s ll (c :: fl')) (v : T) :
    ∃ s', insert s v = some (c, s') ∧ Shape s' (c :: ll) fl' ∧
      valAt s'.slots c = some v ∧
      (∀ k, k ≠ c → valAt s'.slots k = valAt s.slots k) ∧
      s'.len = s.len + 1 ∧ s'.slots.length = s.slots.length ∧
      s'.free = nextOf s.slots c := by
  obtain ⟨hfeq, hsome_c, hrest⟩ := hs.next_fl
  obtain ⟨C, hC⟩ := Option.isSome_iff_exists.mp hsome_c
  have hc_lt : c < s.slots.length := isSome_lt_length hsome_c
  have hc_none : c ≠ NONE := Nat.ne_of_lt (Nat.lt_trans hc_lt hs.cap_lt)
  have hc_mem : c ∈ c :: fl' := List.mem_cons_self c fl'
  have hdisj : ll.Disjoint (c :: fl') := hs.disjoint
  have hc_ll : c ∉ ll := fun h => hdisj h hc_mem
  obtain ⟨hc_fl', hnodup_fl'⟩ :=
    List.nodup_cons.mp (hs.nodup.of_append_right)
  have hcnext : nextOf s.slots c = C.next := by unfold nextOf; rw [hC]
  -- the state after `alloc` and the payload write
  have halloc : alloc s = some (some c, { s with free := C.next }) := by
    unfold alloc
    rw [hfeq, if_neg hc_none, hC]
  have hC2 : ({ s with free := C.next } : LruSlab T).slots[c]? = some C := hC
  -- link the slot at the head of the LRU list
  have hlt2 : (s.slots.set c { C with value := some v }).length < NONE := by
    rw [List.length_set]; exact hs.cap_lt
  have hchain2 : NextChain (s.slots.set c { C with value := some v }) s.head ll := by
    refine NextSeg_congr2 (fun k _ => isSome_set ..) (fun k hk => ?_) hs.next_ll
    exact nextOf_set_ne _ (fun h => hc_ll (by rw [h]; exact hk))
  have hprev2 : PrevChain (s.slots.set c { C with value := some v }) NONE ll := by
    refine PrevChain_congr (fun k hk => ?_) hs.prev_ll
    exact prevOf_set_ne _ (fun h => hc_ll (by rw [h]; exact hk))
  obtain ⟨t', hlink, hthead, httail, htfree, htlen, htslen, htchain, htprev, htval, htframe⟩ :=
    link_at_head_spec (t := { s with
        free := C.next
        slots := s.slots.set c { C with value := some v } })
      hlt2 hchain2 hprev2 hs.tail_eq (hs.nodup.of_append_left)
      (by rw [List.length_set]; exact hc_lt) hc_ll
  have hins : insert s v = some (c, { t' with len := t'.len + 1 }) := by
    unfold insert
    rw [halloc]
    unfold insertCore
    simp only [hC, hlink]
  have hvalc : valAt t'.slots c = some v := by
    rw [htval c, valAt_set_self _ hc_lt]
  have hval_other : ∀ k, k ≠ c → valAt t'.slots k = valAt s.slots k := by
    intro k hk
    rw [htval k, valAt_set_ne _ (fun h => hk h.symm)]
  have hfl_frame : ∀ k ∈ fl', t'.slots[k]? = s.slots[k]? := by
    intro k hk
    have hkc : k ≠ c := fun h => hc_fl' (by rw [← h]; exact hk)
    have hkll : k ∉ ll := fun h => hdisj h (List.mem_cons_of_mem c hk)
    rw [htframe k hkc hkll]
    exact List.getElem?_set_ne (fun h => hkc h.symm)
  refine ⟨{ t' with len := t'.len + 1 }, hins, ?_, hvalc, hval_other,
    by show t'.len + 1 = s.len + 1; rw [htlen], by rw [htslen, List.length_set], ?_⟩
  · refine ⟨by rw [htslen, List.length_set]; exact hs.cap_lt, ?_, htprev, httail, ?_, ?_, ?_, ?_, ?_⟩
    · rw [hthead]; exact htchain
    · intro k hk
      rcases List.mem_cons.mp hk with rfl | hk2
      · rw [hvalc]; rfl
      · rw [hval_other k (fun h => hc_ll (by rw [← h]; exact hk2))]
        exact hs.occ k hk2
    · show NextSeg t'.slots t'.free fl' NONE
      rw [htfree]
      show NextSeg t'.slots C.next fl' NONE
      rw [← hcnext]
      refine NextSeg_congr2 (fun k hk => ?_) (fun k hk => ?_) hrest
      · rw [hfl_frame k hk]
      · unfold nextOf; rw [hfl_frame k hk]
    · intro k hk
      have hkc : k ≠ c := fun h => hc_fl' (by rw [← h]; exact hk)
      rw [hval_other k hkc]
      exact hs.free_val k (List.mem_cons_of_mem c hk)
    · rw [htslen, List.length_set]
      refine List.Perm.trans ?_ hs.perm
      have : (c :: ll) ++ fl' = c :: (ll ++ fl') := rfl
      rw [this]
      exact List.perm_middle.symm
    · show t'.len + 1 = (c :: ll).length
      rw [htlen]
      show s.len + 1 = ll.length + 1
      rw [hs.len_eq]
  · rw [htfree]
    exact hcnext.symm

/-! ### `insert` when the free list is exhausted: growth -/

theorem insert_spec_grow {s : LruSlab T} {ll : List Nat}
    (hs : Shape s ll []) (hcap : s.slots.length < 2 ^ 31) (v : T) :
    ∃ s', insert s v = some (s.slots.length, s') ∧
      Shape s' (s.slots.length :: ll)
        (List.range' (s.slots.length + 1) (2 * max s.slots.length 2 - s.slots.length - 1)) ∧
      s'.slots.length = 2 * max s.slots.length 2 ∧
      valAt s'.slots s.slots.length = some v ∧
      (∀ k, k ≠ s.slots.length → valAt s'.slots k = valAt s.slots k) ∧
      s'.len = s.len + 1 ∧ s'.free = s.slots.length + 1 := by
  have h31 : (2:Nat) ^ 31 = 2147483648 := by norm_num
  have hfreeN : s.free = NONE := hs.next_fl
  have halloc : alloc s = some (none, s) := by unfold alloc; rw [if_pos hfreeN]
  have hmod : (2 * max s.slots.length 2) % U32 = 2 * max s.slots.length 2 :=
    grow_cap_eq_of_small hcap
  have hge : s.slots.length + 2 ≤ 2 * max s.slots.length 2 := by
    rcases grow_cap_ge (n := s.slots.length) with hg | hg
    · exact hg
    · omega
  have hglen : (grow s).slots.length = 2 * max s.slots.length 2 := by
    rw [grow_length, hmod]; omega
  have hG : (grow s).slots[s.slots.length]? =
      some { value := none, prev := NONE, next := s.slots.length + 1 } := by
    rw [grow_slots_hi (Nat.le_refl _) (by rw [hmod]; omega)]
    rw [hmod, if_neg (by omega)]
  have hll_lt : ∀ k ∈ ll, k < s.slots.length := fun k hk => hs.ll_lt hk
  have hn_ll : s.slots.length ∉ ll := fun h => absurd (hll_lt _ h) (Nat.lt_irrefl _)
  have hlow : ∀ k ∈ ll,
      ((grow s).slots.set s.slots.length
        { value := some v, prev := NONE, next := s.slots.length + 1 })[k]? =
        s.slots[k]? := by
    intro k hk
    rw [List.getElem?_set_ne (fun h => hn_ll (by rw [h]; exact hk)),
      grow_slots_lo (hll_lt k hk)]
  have hchain2 : NextChain ((grow s).slots.set s.slots.length
      { value := some v, prev := NONE, next := s.slots.length + 1 }) s.head ll :=
    NextSeg_congr hlow hs.next_ll
  have hprev2 : PrevChain ((grow s).slots.set s.slots.length
      { value := some v, prev := NONE, next := s.slots.length + 1 }) NONE ll := by
    refine PrevChain_congr (fun k hk => ?_) hs.prev_ll
    unfold prevOf; rw [hlow k hk]
  have hnodup_ll : ll.Nodup := by
    have h0 := hs.nodup
    rw [List.append_nil] at h0
    exact h0
  obtain ⟨t', hlink, hthead, httail, htfree, htlen, htslen, htchain, htprev, htval, htframe⟩ :=
    link_at_head_spec (t := { grow s with
        slots := (grow s).slots.set s.slots.length
          { value := some v, prev := NONE, next := s.slots.length + 1 } })
      (by rw [List.length_set, hglen]; exact grow_cap_lt_NONE hcap)
      (by rw [grow_head]; exact hchain2) hprev2
      (by rw [grow_tail]; exact hs.tail_eq) hnodup_ll
      (by rw [List.length_set, hglen]; omega) hn_ll
  have hG' : (grow s).slots[s.slots.length]? =
      some { value := none, next := s.slots.length + 1, prev := NONE } := hG
  have hins : insert s v = some (s.slots.length, { t' with len := t'.len + 1 }) := by
    unfold insert
    rw [halloc]
    unfold insertCore
    simp only [capacity, hG', hlink]
  have hval_grow : ∀ k, k ≠ s.slots.length → valAt (grow s).slots k = valAt s.slots k := by
    intro k hk
    rcases Nat.lt_or_ge k s.slots.length with h | h
    · unfold valAt; rw [grow_slots_lo h]
    · have hsk : valAt s.slots k = none := by
        unfold valAt; rw [List.getElem?_eq_none h]
      have h1 : valAt (grow s).slots k = none := by
        rcases Nat.lt_or_ge k ((grow s).slots.length) with h2 | h2
        · unfold valAt
          rw [grow_slots_hi h (by rw [grow_length] at h2; exact h2)]
        · unfold valAt; rw [List.getElem?_eq_none h2]
      rw [h1, hsk]
  have hvaln : valAt t'.slots s.slots.length = some v := by
    rw [htval]
    rw [valAt_set_self _ (by rw [hglen]; omega)]
  have hval_other : ∀ k, k ≠ s.slots.length → valAt t'.slots k = valAt s.slots k := by
    intro k hk
    rw [htval k, valAt_set_ne _ (fun h => hk h.symm)]
    exact hval_grow k hk
  have hfl_get : ∀ j ∈ List.range' (s.slots.length + 1)
      (2 * max s.slots.length 2 - s.slots.length - 1), t'.slots[j]? =
        some
          { value := none
            prev := NONE
            next := if j + 1 = 2 * max s.slots.length 2 then NONE else j + 1 } := by
    intro j hj
    obtain ⟨i, hi, rfl⟩ := List.mem_range'.mp hj
    have hj1 : s.slots.length + 1 ≤ s.slots.length + 1 + 1 * i := by omega
    have hjne : s.slots.length + 1 + 1 * i ≠ s.slots.length := by omega
    have hjll : s.slots.length + 1 + 1 * i ∉ ll := fun h => by
      have := hll_lt _ h
      omega
    rw [htframe _ hjne hjll,
      List.getElem?_set_ne (fun h => hjne h.symm),
      grow_slots_hi (by omega) (by rw [hmod]; omega)]
    rw [hmod]
  refine ⟨{ t' with len := t'.len + 1 }, hins, ?_, by rw [htslen, List.length_set, hglen],
    hvaln, hval_other, by show t'.len + 1 = s.len + 1; rw [htlen, grow_len], ?_⟩
  · refine ⟨by rw [htslen, List.length_set, hglen]; exact grow_cap_lt_NONE hcap,
      ?_, htprev, httail, ?_, ?_, ?_, ?_, ?_⟩
    · rw [hthead]; exact htchain
    · intro k hk
      rcases List.mem_cons.mp hk with rfl | hk2
      · rw [hvaln]; rfl
      · rw [hval_other k (fun h => hn_ll (by rw [← h]; exact hk2))]
        exact hs.occ k hk2
    · -- the fresh free chain
      show NextSeg t'.slots t'.free _ NONE
      rw [htfree]
      show NextSeg t'.slots (grow s).free _ NONE
      rw [grow_free]
      have hcons := NextChain_consecutive (L := t'.slots)
        (c := 2 * max s.slots.length 2)
        (2 * max s.slots.length 2 - s.slots.length - 1) (s.slots.length + 1)
        (by omega) ?_
      · rw [if_neg (by omega)] at hcons
        exact hcons
      · intro j hj
        constructor
        · rw [hfl_get j hj]; rfl
        · unfold nextOf; rw [hfl_get j hj]
    · intro j hj
      unfold valAt; rw [hfl_get j hj]
    · rw [htslen, List.length_set, hglen]
      have hperm0 : ll.Perm (List.range s.slots.length) := by
        have h0 := hs.perm
        rw [List.append_nil] at h0
        exact h0
      have e1 : List.range' 0 (2 * max s.slots.length 2) =
          List.range' 0 s.slots.length ++
            List.range' s.slots.length (2 * max s.slots.length 2 - s.slots.length) := by
        have := List.range'_append 0 s.slots.length
          (2 * max s.slots.length 2 - s.slots.length) 1
        simp only [Nat.zero_add, Nat.one_mul] at this
        rw [this]
        congr 1
        omega
      have e2 : List.range' s.slots.length (2 * max s.slots.length 2 - s.slots.length) =
          s.slots.length :: List.range' (s.slots.length + 1)
            (2 * max s.slots.length 2 - s.slots.length - 1) := by
        have h1 : 2 * max s.slots.length 2 - s.slots.length =
            (2 * max s.slots.length 2 - s.slots.length - 1) + 1 := by omega
        rw [h1, List.range'_succ]
        have h2 : 2 * max s.slots.length 2 - s.slots.length - 1 + 1 - 1 =
            2 * max s.slots.length 2 - s.slots.length - 1 := by omega
        rw [h2]
      rw [List.range_eq_range', e1, e2]
      have hstep1 : ((s.slots.length :: ll) ++ List.range' (s.slots.length + 1)
          (2 * max s.slots.length 2 - s.slots.length - 1)).Perm
          (s.slots.length :: (List.range' 0 s.slots.length ++ List.range' (s.slots.length + 1)
            (2 * max s.slots.length 2 - s.slots.length - 1))) := by
        show (s.slots.length :: (ll ++ _)).Perm _
        refine List.Perm.cons _ ?_
        refine List.Perm.append_right _ ?_
        rw [← List.range_eq_range']
        exact hperm0
      refine hstep1.trans ?_
      exact List.perm_middle.symm
    · show t'.len + 1 = (s.slots.length :: ll).length
      rw [htlen, grow_len, hs.len_eq]
      rfl
  · rw [htfree, grow_free]

theorem insert_grow_fail {s : LruSlab T} {ll : List Nat} (hs : Shape s ll [])
    (hcap : 2 ^ 31 ≤ s.slots.length) (v : T) : insert s v = none := by
  have hfreeN : s.free = NONE := hs.next_fl
  have halloc : alloc s = some (none, s) := by unfold alloc; rw [if_pos hfreeN]
  have hle : (2 * max s.slots.length 2) % U32 ≤ s.slots.length := grow_cap_le_of_big hcap
  have hnone : (grow s).slots[s.slots.length]? = none := by
    apply List.getElem?_eq_none
    rw [grow_length]
    omega
  unfold insert
  rw [halloc]
  unfold insertCore
  simp only [capacity, hnone]

/-- Inversion for a successful `insert` on a shaped state. -/
theorem insert_spec {s s' : LruSlab T} {ll fl : List Nat} {id : Nat} {v : T}
    (hs : Shape s ll fl) (h : insert s v = some (id, s')) :
    ∃ fl', Shape s' (id :: ll) fl' ∧ valAt s'.slots id = some v ∧
      (∀ k, k ≠ id → valAt s'.slots k = valAt s.slots k) ∧
      s'.len = s.len + 1 ∧ s.slots.length ≤ s'.slots.length ∧
      (fl = [] → id = s.slots.length ∧ s'.slots.length = 2 * max s.slots.length 2) ∧
      (fl ≠ [] → s'.slots.length = s.slots.length) := by
  cases fl with
  | nil =>
    rcases Nat.lt_or_ge s.slots.length (2 ^ 31) with hc | hc
    · obtain ⟨s'', hins, hshape, hlen2, hval, hvalo, hlen, hfree⟩ := insert_spec_grow hs hc v
      have heq := hins.symm.trans h
      rw [Option.some_inj] at heq
      obtain ⟨h1, h2⟩ := Prod.mk.injEq .. ▸ heq
      subst h1
      subst h2
      exact ⟨_, hshape, hval, hvalo, hlen, by omega, fun _ => ⟨rfl, hlen2⟩,
        fun hne => absurd rfl hne⟩
    · rw [insert_grow_fail hs hc v] at h
      exact Option.noConfusion h
  | cons c fl₀ =>
    obtain ⟨s'', hins, hshape, hval, hvalo, hlen, hslen, hfree⟩ := insert_spec_alloc hs v
    have heq := hins.symm.trans h
    rw [Option.some_inj] at heq
    obtain ⟨h1, h2⟩ := Prod.mk.injEq .. ▸ heq
    subst h1
    subst h2
    exact ⟨fl₀, hshape, hval, hvalo, hlen, by omega,
      fun hnil => List.noConfusion hnil, fun _ => hslen⟩

/-! ### Shape-free inversion lemmas, by direct case analysis on the code -/

theorem valAt_set_of_value {slots : List (Slot T)} {j : Nat} {p : Slot T} (x : Slot T)
    (hj : slots[j]? = some p) (hval : x.value = p.value) (k : Nat) :
    valAt (slots.set j x) k = valAt slots k := by
  rcases eq_or_ne j k with rfl | hne
  · rw [valAt_set_self _ (isSome_lt_length (by rw [hj]; rfl)), hval]
    unfold valAt; rw [hj]
  · exact valAt_set_ne _ hne

/-- A successful `unlink` never touches a payload, the free pointer, the
length of the backing array, or `len`. -/
theorem unlink_inv {s s₁ : LruSlab T} {slot : Nat} (h : unlink s slot = some s₁) :
    (∀ k, valAt s₁.slots k = valAt s.slots k) ∧ s₁.free = s.free ∧ s₁.len = s.len ∧
      s₁.slots.length = s.slots.length ∧ slot < s.slots.length := by
  unfold unlink at h
  cases hsl : s.slots[slot]? with
  | none => rw [hsl] at h; exact Option.noConfusion h
  | some sl =>
    have hslot : slot < s.slots.length := isSome_lt_length (by rw [hsl]; rfl)
    rw [hsl] at h
    simp only [] at h
    by_cases hp : sl.prev ≠ NONE
    · rw [if_pos hp] at h
      cases hpp : s.slots[sl.prev]? with
      | none => rw [hpp] at h; exact Option.noConfusion h
      | some p =>
        rw [hpp] at h
        simp only [] at h
        by_cases hn : sl.next ≠ NONE
        · rw [if_pos hn] at h
          cases hqq : (s.slots.set sl.prev { p with next := sl.next })[sl.next]? with
          | none => rw [hqq] at h; exact Option.noConfusion h
          | some q =>
            rw [hqq] at h
            rw [Option.some_inj] at h
            subst h
            refine ⟨?_, rfl, rfl, by rw [List.length_set, List.length_set], hslot⟩
            intro k
            show valAt ((s.slots.set sl.prev { p with next := sl.next }).set sl.next
              { q with prev := sl.prev }) k = valAt s.slots k
            rw [valAt_set_of_value { q with prev := sl.prev } hqq rfl k,
              valAt_set_of_value { p with next := sl.next } hpp rfl k]
        · rw [if_neg hn] at h
          rw [Option.some_inj] at h
          subst h
          exact ⟨fun k => valAt_set_of_value { p with next := sl.next } hpp rfl k,
            rfl, rfl, List.length_set .., hslot⟩
    · rw [if_neg hp] at h
      simp only [] at h
      by_cases hn : sl.next ≠ NONE
      · rw [if_pos hn] at h
        cases hqq : ({ s with head := sl.next } : LruSlab T).slots[sl.next]? with
        | none => rw [hqq] at h; exact Option.noConfusion h
        | some q =>
          rw [hqq] at h
          rw [Option.some_inj] at h
          subst h
          exact ⟨fun k => valAt_set_of_value { q with prev := sl.prev } hqq rfl k,
            rfl, rfl, List.length_set .., hslot⟩
      · rw [if_neg hn] at h
        rw [Option.some_inj] at h
        subst h
        exact ⟨fun k => rfl, rfl, rfl, rfl, hslot⟩

/-- `remove` on a slot with no payload (free slot or out of bounds) is the
`expect("removing empty slot")` panic, i.e. `none`. -/
theorem remove_none_of_valAt_none {s : LruSlab T} {slot : Nat}
    (h : valAt s.slots slot = none) : remove s slot = none := by
  unfold remove
  cases hu : unlink s slot with
  | none => rfl
  | some s₁ =>
    obtain ⟨hval, _, _, _, _⟩ := unlink_inv hu
    have h1 : valAt s₁.slots slot = none := by rw [hval, h]
    simp only []
    unfold valAt at h1
    cases hsl : s₁.slots[slot]? with
    | none => rfl
    | some sl =>
      rw [hsl] at h1
      have h2 : sl.value = none := h1
      simp only [h2]

/-- Inversion for a successful `remove`: the removed slot becomes the new
free-list head, pointing at the old one. -/
theorem remove_inv {s : LruSlab T} {a : Nat} {v : T} {s' : LruSlab T}
    (h : remove s a = some (v, s')) :
    s'.free = a ∧ a < s.slots.length ∧ s'.slots.length = s.slots.length ∧
      nextOf s'.slots a = s.free ∧ s'.len = s.len - 1 := by
  unfold remove at h
  cases hu : unlink s a with
  | none => rw [hu] at h; exact Option.noConfusion h
  | some s₁ =>
    obtain ⟨hval, hfree, hlen, hslen, ha⟩ := unlink_inv hu
    rw [hu] at h
    simp only [] at h
    cases hsl : s₁.slots[a]? with
    | none => rw [hsl] at h; exact Option.noConfusion h
    | some sl =>
      rw [hsl] at h
      simp only [] at h
      cases hv : sl.value with
      | none => rw [hv] at h; exact Option.noConfusion h
      | some v₀ =>
        rw [hv] at h
        rw [Option.some_inj] at h
        obtain ⟨h1, h2⟩ := Prod.mk.injEq .. ▸ h
        subst h2
        have ha1 : a < s₁.slots.length := isSome_lt_length (by rw [hsl]; rfl)
        refine ⟨rfl, ha, by rw [List.length_set, hslen], ?_, by rw [hlen]⟩
        rw [nextOf_set_self _ ha1]
        exact hfree

theorem link_at_head_inv {t t' : LruSlab T} {a : Nat} (h : link_at_head t a = some t') :
    t'.free = t.free ∧ t'.len = t.len ∧ t'.slots.length = t.slots.length := by
  unfold link_at_head at h
  cases hsl : t.slots[a]? with
  | none => rw [hsl] at h; exact Option.noConfusion h
  | some sl =>
    rw [hsl] at h
    simp only [] at h
    by_cases hh : t.head = NONE
    · rw [if_pos hh] at h
      rw [Option.some_inj] at h
      subst h
      exact ⟨rfl, rfl, List.length_set ..⟩
    · rw [if_neg hh] at h
      cases hB : (t.slots.set a { sl with next := t.head })[t.head]? with
      | none => rw [hB] at h; exact Option.noConfusion h
      | some B =>
        rw [hB] at h
        simp only [] at h
        cases hA : ((t.slots.set a { sl with next := t.head }).set t.head
            { B with prev := a })[a]? with
        | none => rw [hA] at h; exact Option.noConfusion h
        | some sl₂ =>
          rw [hA] at h
          rw [Option.some_inj] at h
          subst h
          refine ⟨rfl, rfl, ?_⟩
          rw [List.length_set, List.length_set, List.length_set]

theorem insertCore_inv {t : LruSlab T} {id : Nat} {v : T} {i : Nat} {s' : LruSlab T}
    (h : insertCore t id v = some (i, s')) :
    i = id ∧ s'.free = t.free ∧ s'.slots.length = t.slots.length ∧ id < t.slots.length := by
  unfold insertCore at h
  cases hsl : t.slots[id]? with
  | none => rw [hsl] at h; exact Option.noConfusion h
  | some sl =>
    rw [hsl] at h
    simp only [] at h
    cases hl : link_at_head { t with slots := t.slots.set id { sl with value := some v } }
        id with
    | none => rw [hl] at h; exact Option.noConfusion h
    | some t₃ =>
      rw [hl] at h
      rw [Option.some_inj] at h
      obtain ⟨h1, h2⟩ := Prod.mk.injEq .. ▸ h
      obtain ⟨hf, _, hlen⟩ := link_at_head_inv hl
      subst h2
      refine ⟨h1.symm, hf, ?_, isSome_lt_length (by rw [hsl]; rfl)⟩
      rw [hlen, List.length_set]

/-- Inversion for a successful `insert` that found a free slot: the handle
handed out is the old free-list head, and the free pointer advances to its
`next`. -/
theorem insert_free_inv {s : LruSlab T} {v : T} {i : Nat} {s' : LruSlab T}
    (hf : s.free ≠ NONE) (h : insert s v = some (i, s')) :
    i = s.free ∧ s'.free = nextOf s.slots s.free ∧
      s'.slots.length = s.slots.length := by
  unfold insert alloc at h
  rw [if_neg hf] at h
  cases hsf : s.slots[s.free]? with
  | none => rw [hsf] at h; exact Option.noConfusion h
  | some sl =>
    rw [hsf] at h
    simp only [] at h
    obtain ⟨h1, h2, h3, _⟩ := insertCore_inv h
    refine ⟨h1, ?_, h3⟩
    rw [h2]
    show sl.next = nextOf s.slots s.free
    unfold nextOf; rw [hsf]

/-- Inversion for a successful `insert` that triggered growth: the handle
is the old capacity, the new capacity is `2 * max(old, 2)` (the growth
cannot have overflowed, else the insert would have panicked), and the
free-list head is `old capacity + 1`. -/
theorem insert_grow_inv {s : LruSlab T} {v : T} {i : Nat} {s' : LruSlab T}
    (hf : s.free = NONE) (h : insert s v = some (i, s')) :
    i = s.slots.length ∧ s.slots.length < 2 ^ 31 ∧
      s'.slots.length = 2 * max s.slots.length 2 ∧
      s'.free = s.slots.length + 1 := by
  unfold insert at h
  have halloc : alloc s = some (none, s) := by unfold alloc; rw [if_pos hf]
  rw [halloc] at h
  simp only [] at h
  obtain ⟨h1, h2, h3, h4⟩ := insertCore_inv h
  have hcap : s.slots.length < 2 ^ 31 := by
    by_contra hge
    have hle := grow_cap_le_of_big (Nat.le_of_not_lt hge)
    rw [grow_length] at h4
    unfold capacity at h4
    omega
  have hmod := grow_cap_eq_of_small hcap
  refine ⟨h1, hcap, ?_, ?_⟩
  · rw [h3, grow_length, hmod]
    have hge2 : s.slots.length + 2 ≤ 2 * max s.slots.length 2 := by
      rcases grow_cap_ge (n := s.slots.length) with hg | hg
      · exact hg
      · omega
    omega
  · rw [h2, grow_free]

/-! ### The reachability invariant -/

/-- The structural invariant, with the two lists hidden. -/
def Inv (s : LruSlab T) : Prop := ∃ ll fl, Shape s ll fl

theorem remove_mem_of_some {s : LruSlab T} {ll fl : List Nat} (hs : Shape s ll fl)
    {a : Nat} {v : T} {s' : LruSlab T} (h : remove s a = some (v, s')) : a ∈ ll := by
  by_contra hmem
  have hnone : valAt s.slots a = none := by
    rcases Nat.lt_or_ge a s.slots.length with hlt | hge
    · rcases hs.mem_of_lt hlt with h1 | h2
      · exact absurd h1 hmem
      · exact hs.free_val a h2
    · unfold valAt; rw [List.getElem?_eq_none hge]
  rw [remove_none_of_valAt_none hnone] at h
  exact Option.noConfusion h

theorem get_mut_none_of_valAt_none {s : LruSlab T} {slot : Nat}
    (h : valAt s.slots slot = none) : get_mut s slot = none := by
  unfold get_mut freshen
  cases hsl : s.slots[slot]? with
  | none => rfl
  | some sl =>
    have h1 : sl.value = none := by
      unfold valAt at h; rw [hsl] at h; exact h
    simp only []
    by_cases hp : sl.prev = NONE
    · rw [if_pos hp]
      simp only [hsl, h1]
    · rw [if_neg hp]
      cases hu : unlink s slot with
      | none => rfl
      | some s₁ =>
        cases hl : link_at_head s₁ slot with
        | none => simp only [hl]
        | some t' =>
          -- the payload at `slot` is still absent after relinking
          have hval1 : valAt s₁.slots slot = none := by
            rw [(unlink_inv hu).1 slot, h]
          have hval2 : valAt t'.slots slot = none := by
            -- `link_at_head` writes only link fields
            unfold link_at_head at hl
            cases hsl1 : s₁.slots[slot]? with
            | none => rw [hsl1] at hl; exact Option.noConfusion hl
            | some sl1 =>
              rw [hsl1] at hl
              simp only [] at hl
              by_cases hh : s₁.head = NONE
              · rw [if_pos hh] at hl
                rw [Option.some_inj] at hl
                subst hl
                rw [show valAt (s₁.slots.set slot { sl1 with next := NONE, prev := NONE })
                    slot = valAt s₁.slots slot from
                  valAt_set_of_value { sl1 with next := NONE, prev := NONE } hsl1 rfl slot]
                exact hval1
              · rw [if_neg hh] at hl
                cases hB : (s₁.slots.set slot { sl1 with next := s₁.head })[s₁.head]? with
                | none => rw [hB] at hl; exact Option.noConfusion hl
                | some B =>
                  rw [hB] at hl
                  simp only [] at hl
                  cases hA : ((s₁.slots.set slot { sl1 with next := s₁.head }).set s₁.head
                      { B with prev := slot })[slot]? with
                  | none => rw [hA] at hl; exact Option.noConfusion hl
                  | some sl₂ =>
                    rw [hA] at hl
                    rw [Option.some_inj] at hl
                    subst hl
                    show valAt (((s₁.slots.set slot { sl1 with next := s₁.head }).set s₁.head
                      { B with prev := slot }).set slot { sl₂ with prev := NONE }) slot = none
                    rw [valAt_set_of_value { sl₂ with prev := NONE } hA rfl slot,
                      valAt_set_of_value { B with prev := slot } hB rfl slot,
                      valAt_set_of_value { sl1 with next := s₁.head } hsl1 rfl slot]
                    exact hval1
          unfold valAt at hval2
          simp only [hl]
          cases hsl2 : t'.slots[slot]? with
          | none => simp only [hsl2]
          | some sl2 =>
            rw [hsl2] at hval2
            have h2 : sl2.value = none := hval2
            simp only [hsl2, h2]

theorem get_mut_mem_of_some {s : LruSlab T} {ll fl : List Nat} (hs : Shape s ll fl)
    {a : Nat} {v : T} {s' : LruSlab T} (h : get_mut s a = some (v, s')) : a ∈ ll := by
  by_contra hmem
  have hnone : valAt s.slots a = none := by
    rcases Nat.lt_or_ge a s.slots.length with hlt | hge
    · rcases hs.mem_of_lt hlt with h1 | h2
      · exact absurd h1 hmem
      · exact hs.free_val a h2
    · unfold valAt; rw [List.getElem?_eq_none hge]
  rw [get_mut_none_of_valAt_none hnone] at h
  exact Option.noConfusion h

theorem Reachable.inv {s : LruSlab T} (h : Reachable s) : Inv s := by
  induction h with
  | of_with_capacity c s hc hwc =>
    unfold with_capacity at hwc
    by_cases hcn : c = NONE
    · rw [if_pos hcn] at hwc; exact Option.noConfusion hwc
    · rw [if_neg hcn] at hwc
      rw [Option.some_inj] at hwc
      subst hwc
      refine ⟨[], List.range c, shape_with_capacity_raw c ?_⟩
      unfold NONE
      unfold NONE at hcn
      unfold U32 at hc
      omega
  | of_insert s s' v id hr hins ih =>
    obtain ⟨ll, fl, hs⟩ := ih
    obtain ⟨fl', hs', _⟩ := insert_spec hs hins
    exact ⟨_, _, hs'⟩
  | of_remove s s' slot v hr hrem ih =>
    obtain ⟨ll, fl, hs⟩ := ih
    obtain ⟨m1, m2, hm⟩ := List.append_of_mem (remove_mem_of_some hs hrem)
    subst hm
    obtain ⟨v₀, s₀, hrem₀, _, hs₀, _⟩ := remove_spec hs
    rw [hrem₀] at hrem
    rw [Option.some_inj] at hrem
    obtain ⟨h1, h2⟩ := Prod.mk.injEq .. ▸ hrem
    subst h2
    exact ⟨_, _, hs₀⟩
  | of_get_mut s s' slot v hr hgm ih =>
    obtain ⟨ll, fl, hs⟩ := ih
    obtain ⟨m1, m2, hm⟩ := List.append_of_mem (get_mut_mem_of_some hs hgm)
    subst hm
    obtain ⟨v₀, s₀, hgm₀, _, hs₀, _⟩ := get_mut_spec hs
    rw [hgm₀] at hgm
    rw [Option.some_inj] at hgm
    obtain ⟨h1, h2⟩ := Prod.mk.injEq .. ▸ hgm
    subst h2
    exact ⟨_, _, hs₀⟩

/-! ### Draining through `lru` + `remove` -/

/-- Repeatedly removing the reported LRU slot `len` times succeeds,
yields the stored values in reverse MRU order (least recent first), and
empties the container. -/
theorem drainAll_spec {ll : List Nat} :
    ∀ {s : LruSlab T} {fl : List Nat}, Shape s ll fl →
      ∃ vs s', drainAll s.len s = some (vs, s') ∧
        valsOf s.slots ll = some vs.reverse ∧ s'.len = 0 ∧ s'.lru = none := by
  induction ll using List.reverseRecOn with
  | nil =>
    intro s fl hs
    refine ⟨[], s, ?_, rfl, hs.len_eq, ?_⟩
    · rw [hs.len_eq]; rfl
    · have ht : s.tail = NONE := hs.tail_eq
      unfold lru
      rw [if_pos ht]
  | append_singleton l a ih =>
    intro s fl hs
    have ha_mem : a ∈ l ++ [a] := List.mem_append_right _ (List.mem_cons_self a [])
    have ha_lt : a < s.slots.length := hs.ll_lt ha_mem
    have htail : s.tail = a := by rw [hs.tail_eq, getLastD_concat]
    have hlru : s.lru = some a := by
      unfold lru
      rw [if_neg (by rw [htail]; exact Nat.ne_of_lt (Nat.lt_trans ha_lt hs.cap_lt)), htail]
    obtain ⟨v, s₁, hrem, hvala, hs₁, hvalo, hvalaN, hlen₁, hslen₁, hfree₁⟩ :=
      @remove_spec T s l [] fl a hs
    rw [List.append_nil] at hs₁
    have ha_l : a ∉ l := by
      have hnodup := hs.nodup.of_append_left
      obtain ⟨_, _, hd⟩ := List.nodup_append.mp hnodup
      exact fun h => hd h (List.mem_cons_self a [])
    obtain ⟨vs, s', hdrain, hvals, hlen0, hlru0⟩ := ih hs₁
    have hvals_l : valsOf s.slots l = some vs.reverse := by
      rw [← hvals]
      exact (valsOf_congr (fun k hk => hvalo k (fun h => ha_l (by rw [← h]; exact hk)))).symm
    refine ⟨v :: vs, s', ?_, ?_, hlen0, hlru0⟩
    · have hlen1 : s.len = l.length + 1 := by
        rw [hs.len_eq]; simp
      rw [hlen1]
      unfold drainAll
      rw [hlru]
      simp only [hrem]
      have hlen2 : l.length = s₁.len := by omega
      rw [hlen2]
      simp only [hdrain]
    · rw [valsOf_append, hvals_l]
      simp only [valsOf, hvala]
      rw [List.reverse_cons]

/-! ### Inserting a whole list into the structure -/

theorem insertAll_spec {vs : List T} :
    ∀ {s : LruSlab T} {ll fl : List Nat} {acc : List T}, Shape s ll fl →
      valsOf s.slots ll = some acc →
      s.len + vs.length ≤ 2 ^ 31 →
      ∃ s' ll' fl', insertAll s vs = some s' ∧ Shape s' ll' fl' ∧
        valsOf s'.slots ll' = some (vs.reverse ++ acc) ∧
        s'.len = s.len + vs.length := by
  induction vs with
  | nil =>
    intro s ll fl acc hs hacc _
    exact ⟨s, ll, fl, rfl, hs, by simpa using hacc, by simp⟩
  | cons v vs' ih =>
    intro s ll fl acc hs hacc hbound
    have hins : ∃ id s₁, insert s v = some (id, s₁) := by
      cases fl with
      | nil =>
        have hcap : s.slots.length < 2 ^ 31 := by
          have hperm := hs.perm
          rw [List.append_nil] at hperm
          have hleq := hperm.length_eq
          rw [List.length_range] at hleq
          have hlen := hs.len_eq
          simp only [List.length_cons] at hbound
          omega
        obtain ⟨s₁, h1, _⟩ := insert_spec_grow hs hcap v
        exact ⟨_, _, h1⟩
      | cons c fl₁ =>
        obtain ⟨s₁, h1, _⟩ := insert_spec_alloc hs v
        exact ⟨_, _, h1⟩
    obtain ⟨id, s₁, hins⟩ := hins
    obtain ⟨fl', hs₁, hvalid, hvalo, hlen₁, _⟩ := insert_spec hs hins
    have hid_ll : id ∉ ll := (List.nodup_cons.mp hs₁.nodup.of_append_left).1
    have hacc₁ : valsOf s₁.slots ll = some acc := by
      rw [valsOf_congr (fun k hk => hvalo k (fun h => hid_ll (by rw [← h]; exact hk)))]
      exact hacc
    have hacc₂ : valsOf s₁.slots (id :: ll) = some (v :: acc) := by
      simp only [valsOf, hvalid, hacc₁]
    have hIA : insertAll s (v :: vs') = insertAll s₁ vs' := by
      conv_lhs => rw [insertAll]
      rw [hins]
    obtain ⟨s', ll', fl'', hall, hs', hvals', hlen'⟩ := ih hs₁ hacc₂
      (by simp only [List.length_cons] at hbound; omega)
    refine ⟨s', ll', fl'', by rw [hIA]; exact hall, hs', ?_, ?_⟩
    · rw [hvals']
      congr 1
      rw [List.reverse_cons, List.append_assoc]
      rfl
    · rw [hlen', hlen₁]
      simp only [List.length_cons]
      omega

/-! ### Payloads survive `link_at_head` and `insert` (Shape-free) -/

theorem link_at_head_valAt {t t' : LruSlab T} {a : Nat} (h : link_at_head t a = some t') :
    ∀ k, valAt t'.slots k = valAt t.slots k := by
  unfold link_at_head at h
  cases hsl : t.slots[a]? with
  | none => rw [hsl] at h; exact Option.noConfusion h
  | some sl =>
    rw [hsl] at h
    simp only [] at h
    by_cases hh : t.head = NONE
    · rw [if_pos hh] at h
      rw [Option.some_inj] at h
      subst h
      exact fun k => valAt_set_of_value { sl with next := NONE, prev := NONE } hsl rfl k
    · rw [if_neg hh] at h
      cases hB : (t.slots.set a { sl with next := t.head })[t.head]? with
      | none => rw [hB] at h; exact Option.noConfusion h
      | some B =>
        rw [hB] at h
        simp only [] at h
        cases hA : ((t.slots.set a { sl with next := t.head }).set t.head
            { B with prev := a })[a]? with
        | none => rw [hA] at h; exact Option.noConfusion h
        | some sl₂ =>
          rw [hA] at h
          rw [Option.some_inj] at h
          subst h
          intro k
          show valAt (((t.slots.set a { sl with next := t.head }).set t.head
            { B with prev := a }).set a { sl₂ with prev := NONE }) k = valAt t.slots k
          rw [valAt_set_of_value { sl₂ with prev := NONE } hA rfl k,
            valAt_set_of_value { B with prev := a } hB rfl k,
            valAt_set_of_value { sl with next := t.head } hsl rfl k]

theorem insertCore_valAt {t : LruSlab T} {id : Nat} {v : T} {i : Nat} {s' : LruSlab T}
    (h : insertCore t id v = some (i, s')) :
    ∀ k, k ≠ id → valAt s'.slots k = valAt t.slots k := by
  unfold insertCore at h
  cases hsl : t.slots[id]? with
  | none => rw [hsl] at h; exact Option.noConfusion h
  | some sl =>
    rw [hsl] at h
    simp only [] at h
    cases hl : link_at_head { t with slots := t.slots.set id { sl with value := some v } }
        id with
    | none => rw [hl] at h; exact Option.noConfusion h
    | some t₃ =>
      rw [hl] at h
      rw [Option.some_inj] at h
      obtain ⟨h1, h2⟩ := Prod.mk.injEq .. ▸ h
      subst h2
      intro k hk
      rw [link_at_head_valAt hl k]
      exact valAt_set_ne _ (fun h => hk h.symm)

theorem grow_valAt {s : LruSlab T} (k : Nat) (hk : k ≠ s.slots.length) :
    valAt (grow s).slots k = valAt s.slots k := by
  rcases Nat.lt_or_ge k s.slots.length with h | h
  · unfold valAt; rw [grow_slots_lo h]
  · have hsk : valAt s.slots k = none := by
      unfold valAt; rw [List.getElem?_eq_none h]
    have h1 : valAt (grow s).slots k = none := by
      rcases Nat.lt_or_ge k ((grow s).slots.length) with h2 | h2
      · unfold valAt
        rw [grow_slots_hi (by omega) (by rw [grow_length] at h2; exact h2)]
      · unfold valAt; rw [List.getElem?_eq_none h2]
    rw [h1, hsk]

/-- Values at other slots survive any successful `insert`. -/
theorem insert_valAt_other {s s' : LruSlab T} {v : T} {id : Nat}
    (h : insert s v = some (id, s')) :
    ∀ k, k ≠ id → valAt s'.slots k = valAt s.slots k := by
  unfold insert at h
  by_cases hf : s.free = NONE
  · have halloc : alloc s = some (none, s) := by unfold alloc; rw [if_pos hf]
    rw [halloc] at h
    simp only [] at h
    obtain ⟨h1, _, _, _⟩ := insertCore_inv h
    intro k hk
    rw [h1] at hk
    rw [insertCore_valAt h k hk]
    refine grow_valAt k ?_
    unfold capacity at hk
    exact hk
  · unfold alloc at h
    rw [if_neg hf] at h
    cases hsf : s.slots[s.free]? with
    | none => rw [hsf] at h; exact Option.noConfusion h
    | some sl =>
      rw [hsf] at h
      simp only [] at h
      obtain ⟨h1, _, _, _⟩ := insertCore_inv h
      intro k hk
      rw [h1] at hk
      exact insertCore_valAt h k hk

/-- `get_mut` never changes the capacity. -/
theorem get_mut_length {s s' : LruSlab T} {a : Nat} {v : T}
    (h : get_mut s a = some (v, s')) : s'.slots.length = s.slots.length := by
  unfold get_mut at h
  cases hfr : freshen s a with
  | none => rw [hfr] at h; exact Option.noConfusion h
  | some s₁ =>
    rw [hfr] at h
    simp only [] at h
    cases hsl : s₁.slots[a]? with
    | none => rw [hsl] at h; exact Option.noConfusion h
    | some sl =>
      rw [hsl] at h
      simp only [] at h
      cases hv : sl.value with
      | none => rw [hv] at h; exact Option.noConfusion h
      | some v₀ =>
        rw [hv] at h
        rw [Option.some_inj] at h
        obtain ⟨h1, h2⟩ := Prod.mk.injEq .. ▸ h
        subst h2
        -- s' = s₁ came from freshen
        unfold freshen at hfr
        cases hsl0 : s.slots[a]? with
        | none => rw [hsl0] at hfr; exact Option.noConfusion hfr
        | some sl0 =>
          rw [hsl0] at hfr
          simp only [] at hfr
          by_cases hp : sl0.prev = NONE
          · rw [if_pos hp] at hfr
            rw [Option.some_inj] at hfr
            rw [hfr]
          · rw [if_neg hp] at hfr
            cases hu : unlink s a with
            | none => rw [hu] at hfr; exact Option.noConfusion hfr
            | some s₂ =>
              rw [hu] at hfr
              simp only [] at hfr
              obtain ⟨_, _, hlen3⟩ := link_at_head_inv hfr
              rw [hlen3, (unlink_inv hu).2.2.2.1]

/-! ### Decidability of the chain predicates, for concrete witnesses -/

instance decNextSeg [DecidableEq T] (slots : List (Slot T)) :
    ∀ (i : Nat) (l : List Nat) (j : Nat), Decidable (NextSeg slots i l j)
  | i, [], j => decidable_of_iff (i = j) NextSeg_nil.symm
  | i, a :: l, j =>
    haveI := decNextSeg slots (nextOf slots a) l j
    decidable_of_iff _ NextSeg_cons.symm

instance decPrevChain [DecidableEq T] (slots : List (Slot T)) :
    ∀ (p : Nat) (l : List Nat), Decidable (PrevChain slots p l)
  | _, [] => .isTrue trivial
  | p, a :: l =>
    haveI := decPrevChain slots a l
    decidable_of_iff _ PrevChain_cons.symm

instance decNextChain [DecidableEq T] (slots : List (Slot T)) (i : Nat) (l : List Nat) :
    Decidable (NextChain slots i l) :=
  decidable_of_iff (NextSeg slots i l NONE) Iff.rfl

theorem peek_eq_valAt (s : LruSlab T) (a : Nat) : peek s a = valAt s.slots a := by
  unfold peek valAt
  cases s.slots[a]? <;> rfl

/-! ## The claims -/

/-- C1 (counterexample): the claim's growth formula `max(2, 2 × old)`
predicts capacity 2 when growing from capacity 0, but inserting into a
fresh empty `LruSlab` (capacity 0, empty free list, so growth triggers)
yields capacity 4. -/
theorem C1_counterexample :
    (LruSlab.new Nat).free = NONE ∧
    ((LruSlab.new Nat).insert 37).map (fun p => p.2.capacity) = some 4 ∧
    max 2 (2 * (LruSlab.new Nat).capacity) = 2 ∧ (4 : Nat) ≠ 2 := by
  exact ⟨by decide, by decide, by decide, by decide⟩

/-- C1 (amended): when `insert` triggers growth (the free list is empty),
the new capacity equals `2 * max(old capacity, 2)` — growing from
capacity 0 therefore yields 4, not 2 — the returned handle is the old
capacity, and the free-list head after growth is `old_capacity + 1`,
which is always strictly below the new capacity (the sentinel case cannot
arise). -/
theorem C1_growth_capacity {T : Type} {s : LruSlab T} {v : T} {id : Nat} {s' : LruSlab T}
    (hfree : s.free = NONE) (h : s.insert v = some (id, s')) :
    s'.capacity = 2 * max s.capacity 2 ∧ id = s.capacity ∧
      s'.free = s.capacity + 1 ∧ s'.free < s'.capacity ∧ s'.free ≠ NONE := by
  obtain ⟨h1, h2, h3, h4⟩ := insert_grow_inv hfree h
  have h31 : (2:Nat) ^ 31 = 2147483648 := by norm_num
  have hmx := Nat.le_max_left s.slots.length 2
  have hmx2 := Nat.le_max_right s.slots.length 2
  unfold capacity
  refine ⟨h3, h1, h4, ?_, ?_⟩
  · rw [h4, h3]
    omega
  · rw [h4]
    unfold NONE
    omega

/-- C2: an `insert` that grows the backing array preserves every live
handle's value; the capacity at least doubles and ends at least 2; and
the capacity never decreases across `insert`, `remove`, or `get_mut`. -/
theorem C2_growth_preserves {T : Type} :
    (∀ (s : LruSlab T) (v w : T) (hdl id : Nat) (s' : LruSlab T),
      s.free = NONE → s.peek hdl = some w → s.insert v = some (id, s') →
      s'.peek hdl = some w ∧ 2 * s.capacity ≤ s'.capacity ∧ 2 ≤ s'.capacity) ∧
    (∀ (s : LruSlab T) (v : T) (id : Nat) (s' : LruSlab T),
      s.insert v = some (id, s') → s.capacity ≤ s'.capacity) ∧
    (∀ (s : LruSlab T) (a : Nat) (v : T) (s' : LruSlab T),
      s.remove a = some (v, s') → s.capacity ≤ s'.capacity) ∧
    (∀ (s : LruSlab T) (a : Nat) (v : T) (s' : LruSlab T),
      s.get_mut a = some (v, s') → s.capacity ≤ s'.capacity) := by
  refine ⟨?_, ?_, ?_, ?_⟩
  · intro s v w hdl id s' hfree hpeek hins
    obtain ⟨h1, h2, h3, h4⟩ := insert_grow_inv hfree hins
    rw [peek_eq_valAt] at hpeek
    have hlt : hdl < s.slots.length := by
      obtain ⟨sl, v', hsl, _, _⟩ := valAt_isSome_elim (by rw [hpeek]; rfl)
      exact isSome_lt_length (by rw [hsl]; rfl)
    have hne : hdl ≠ id := by rw [h1]; omega
    have hmx := Nat.le_max_left s.slots.length 2
    have hmx2 := Nat.le_max_right s.slots.length 2
    unfold capacity
    refine ⟨?_, by omega, by omega⟩
    rw [peek_eq_valAt, insert_valAt_other hins hdl hne, hpeek]
  · intro s v id s' h
    by_cases hf : s.free = NONE
    · obtain ⟨_, h2, h3, _⟩ := insert_grow_inv hf h
      have hmx := Nat.le_max_left s.slots.length 2
      unfold capacity
      omega
    · obtain ⟨_, _, h3⟩ := insert_free_inv hf h
      unfold capacity
      omega
  · intro s a v s' h
    obtain ⟨_, _, h3, _, _⟩ := remove_inv h
    unfold capacity
    omega
  · intro s a v s' h
    have h3 := get_mut_length h
    unfold capacity
    omega

/-- C3: in every reachable state, `head = NONE` iff `tail = NONE` iff
`len = 0`; following `next` from `head` visits exactly `len` occupied
slots, ending at `tail` then the sentinel; free-list slots carry no
payload, and the chain from `free` reaches the sentinel after exactly
`capacity - len` slots. -/
theorem C3_reachable_invariants {T : Type} {s : LruSlab T} (h : Reachable s) :
    (s.head = NONE ↔ s.len = 0) ∧ (s.tail = NONE ↔ s.len = 0) ∧
    ∃ ll fl, NextChain s.slots s.head ll ∧ ll.length = s.len ∧
      s.tail = ll.getLastD NONE ∧ (∀ a ∈ ll, (valAt s.slots a).isSome = true) ∧
      NextChain s.slots s.free fl ∧ (∀ a ∈ fl, valAt s.slots a = none) ∧
      fl.length = s.capacity - s.len := by
  obtain ⟨ll, fl, hs⟩ := h.inv
  refine ⟨hs.head_none_iff, hs.tail_none_iff, ll, fl, hs.next_ll, hs.len_eq.symm,
    hs.tail_eq, hs.occ, hs.next_fl, hs.free_val, ?_⟩
  have hperm := hs.perm.length_eq
  rw [List.length_append, List.length_range] at hperm
  have hlen := hs.len_eq
  unfold capacity
  omega

/-- C4: slot reuse is LIFO: removing a slot and inserting again hands the
same slot back; removing `a` then `b` followed by two inserts hands back
`b` then `a`. -/
theorem C4_lifo_reuse {T : Type} :
    (∀ (s : LruSlab T) (a : Nat) (va : T) (s₁ : LruSlab T) (v : T) (i₁ : Nat)
      (s₂ : LruSlab T),
      s.capacity < NONE → s.remove a = some (va, s₁) → s₁.insert v = some (i₁, s₂) →
      i₁ = a) ∧
    (∀ (s : LruSlab T) (a b : Nat) (va vb : T) (s₁ s₂ : LruSlab T) (v w : T)
      (i₁ : Nat) (s₃ : LruSlab T) (i₂ : Nat) (s₄ : LruSlab T),
      s.capacity < NONE → s.remove a = some (va, s₁) → s₁.remove b = some (vb, s₂) →
      s₂.insert v = some (i₁, s₃) → s₃.insert w = some (i₂, s₄) →
      i₁ = b ∧ i₂ = a) := by
  constructor
  · intro s a va s₁ v i₁ s₂ hcap hrem hins
    obtain ⟨hf, ha, hlen, hnext, _⟩ := remove_inv hrem
    have hne : s₁.free ≠ NONE := by
      rw [hf]
      exact Nat.ne_of_lt (Nat.lt_trans ha hcap)
    obtain ⟨h1, _, _⟩ := insert_free_inv hne hins
    rw [h1, hf]
  · intro s a b va vb s₁ s₂ v w i₁ s₃ i₂ s₄ hcap hrem1 hrem2 hins1 hins2
    obtain ⟨hf1, ha, hlen1, hnext1, _⟩ := remove_inv hrem1
    obtain ⟨hf2, hb, hlen2, hnext2, _⟩ := remove_inv hrem2
    have hbs : b < s.slots.length := by rw [← hlen1]; exact hb
    have hbne : s₂.free ≠ NONE := by
      rw [hf2]
      exact Nat.ne_of_lt (Nat.lt_trans hbs hcap)
    obtain ⟨hi1, hf3, _⟩ := insert_free_inv hbne hins1
    have hf3a : s₃.free = a := by rw [hf3, hf2, hnext2, hf1]
    have hane : s₃.free ≠ NONE := by
      rw [hf3a]
      exact Nat.ne_of_lt (Nat.lt_trans ha hcap)
    obtain ⟨hi2, _, _⟩ := insert_free_inv hane hins2
    exact ⟨by rw [hi1, hf2], by rw [hi2, hf3a]⟩

/-- C5: after inserting `v₁, …, vₙ` into an empty `LruSlab` with no other
operations, the MRU→LRU iteration yields exactly `vₙ, …, v₁` — in
particular exactly `len` elements — and iteration is a pure reading of
the state. -/
theorem C5_mru_order {T : Type} (vs : List T) (hn : vs.length ≤ 2 ^ 31) :
    ∃ s', insertAll (LruSlab.new T) vs = some s' ∧
      iterList s' = some vs.reverse ∧ s'.len = vs.length ∧
      vs.reverse.length = s'.len := by
  have hs0 : Shape (LruSlab.new T) [] [] :=
    shape_with_capacity_raw 0 (by unfold NONE; omega)
  obtain ⟨s', ll', fl', hall, hs', hvals, hlen⟩ :=
    @insertAll_spec T vs (LruSlab.new T) [] [] [] hs0 rfl
      (by show 0 + vs.length ≤ 2 ^ 31; omega)
  have hlen' : s'.len = vs.length := by
    rw [hlen]
    show 0 + vs.length = vs.length
    omega
  refine ⟨s', hall, ?_, hlen', by simp [hlen']⟩
  rw [iterList_shape hs', hvals]
  simp

/-- C6: `get_mut` on an occupied slot moves it to the front of the
MRU→LRU iteration, preserves every payload and the relative order of all
other occupied slots, and is a complete no-op on the state when the slot
is already the head. -/
theorem C6_freshen_reorders {T : Type} {s : LruSlab T} {l1 l2 fl : List Nat} {a : Nat}
    (hs : Shape s (l1 ++ a :: l2) fl) :
    ∃ v s', s.get_mut a = some (v, s') ∧
      Shape s' (a :: (l1 ++ l2)) fl ∧
      (∀ k, valAt s'.slots k = valAt s.slots k) ∧
      iterList s' = valsOf s.slots (a :: (l1 ++ l2)) ∧
      (l1 = [] → s' = s) := by
  obtain ⟨v, s', hgm, hval, hs', hvals, hlen, hslen, hnoop⟩ := get_mut_spec hs
  refine ⟨v, s', hgm, hs', hvals, ?_, hnoop⟩
  rw [iterList_shape hs']
  exact valsOf_congr (fun k _ => hvals k)

/-- C7: `lru` reports the tail exactly when the slab is non-empty;
repeatedly taking `lru` and removing it drains every element in order of
strictly increasing recency (the reverse of the MRU→LRU iteration), and
afterwards `lru` reports nothing. -/
theorem C7_lru_drain {T : Type} {s : LruSlab T} {ll fl : List Nat} (hs : Shape s ll fl) :
    (s.len ≠ 0 → s.lru = some s.tail) ∧ (s.len = 0 → s.lru = none) ∧
    ∃ vs s', drainAll s.len s = some (vs, s') ∧ iterList s = some vs.reverse ∧
      s'.len = 0 ∧ s'.lru = none := by
  refine ⟨?_, ?_, ?_⟩
  · intro hne
    unfold lru
    rw [if_neg (fun ht => hne (hs.tail_none_iff.mp ht))]
  · intro h0
    unfold lru
    rw [if_pos (hs.tail_none_iff.mpr h0)]
  · obtain ⟨vs, s', hdrain, hvals, hlen0, hlru0⟩ := drainAll_spec hs
    exact ⟨vs, s', hdrain, by rw [iterList_shape hs, hvals], hlen0, hlru0⟩

/-- C8: `peek` and `peek_mut` hand out the value stored at an occupied
slot without any reordering: head, tail, free, len, and every slot's
links are identical before and after. -/
theorem C8_peek_no_reorder {T : Type} {s : LruSlab T} {a : Nat} {v : T} {s' : LruSlab T}
    (h : s.peek_mut a = some (v, s')) :
    s.peek a = some v ∧ valAt s.slots a = some v ∧ s'.head = s.head ∧
      s'.tail = s.tail ∧ s'.free = s.free ∧ s'.len = s.len ∧ s'.slots = s.slots := by
  unfold peek_mut at h
  cases hsl : s.slots[a]? with
  | none => rw [hsl] at h; exact Option.noConfusion h
  | some sl =>
    rw [hsl] at h
    simp only [] at h
    cases hv : sl.value with
    | none => rw [hv] at h; exact Option.noConfusion h
    | some v₀ =>
      rw [hv] at h
      rw [Option.some_inj] at h
      obtain ⟨h1, h2⟩ := Prod.mk.injEq .. ▸ h
      subst h1
      subst h2
      refine ⟨?_, ?_, rfl, rfl, rfl, rfl, rfl⟩
      · unfold peek; rw [hsl]; exact hv
      · unfold valAt; rw [hsl]; exact hv

/-- C9: on a well-formed state, `remove` panics (a fail-fast logic error,
modelled as `none`) exactly when the slot holds no payload — double
remove, a free slot, or an out-of-bounds handle — and on an occupied slot
it succeeds and returns the stored value. -/
theorem C9_remove_fail_fast {T : Type} {s : LruSlab T} {ll fl : List Nat}
    (hs : Shape s ll fl) (a : Nat) :
    (s.remove a = none ↔ valAt s.slots a = none) ∧
    (∀ v, valAt s.slots a = some v → ∃ s', s.remove a = some (v, s')) := by
  have hsucc : ∀ v, valAt s.slots a = some v → ∃ s', s.remove a = some (v, s') := by
    intro v hv
    have hmem : a ∈ ll := by
      obtain ⟨sl, v', hsl, _, _⟩ := valAt_isSome_elim (by rw [hv]; rfl)
      have hlt : a < s.slots.length := isSome_lt_length (by rw [hsl]; rfl)
      rcases hs.mem_of_lt hlt with h1 | h2
      · exact h1
      · rw [hs.free_val a h2] at hv
        exact Option.noConfusion hv
    obtain ⟨m1, m2, hm⟩ := List.append_of_mem hmem
    subst hm
    obtain ⟨v₀, s₀, hrem, hval₀, _⟩ := remove_spec hs
    rw [hval₀] at hv
    rw [Option.some_inj] at hv
    subst hv
    exact ⟨s₀, hrem⟩
  refine ⟨⟨?_, fun hn => remove_none_of_valAt_none hn⟩, hsucc⟩
  intro hnone
  cases hval : valAt s.slots a with
  | none => rfl
  | some v =>
    obtain ⟨s', hsome⟩ := hsucc v hval
    rw [hsome] at hnone
    exact Option.noConfusion hnone

/-- C10: every handle returned by `insert` on a well-formed state is
strictly below the capacity reported immediately afterwards, never equals
the sentinel `u32::MAX`, and indexes the backing array in bounds. -/
theorem C10_handles_in_bounds {T : Type} {s : LruSlab T} {ll fl : List Nat} {v : T}
    {id : Nat} {s' : LruSlab T} (hs : Shape s ll fl) (h : s.insert v = some (id, s')) :
    id < s'.capacity ∧ id ≠ NONE ∧ (s'.slots[id]?).isSome = true := by
  obtain ⟨fl', hs', _⟩ := insert_spec hs h
  have hlt : id < s'.slots.length := hs'.ll_lt (List.mem_cons_self id ll)
  exact ⟨hlt, Nat.ne_of_lt (Nat.lt_trans hlt hs'.cap_lt),
    by rw [List.getElem?_eq_getElem hlt]; rfl⟩

/-! ## Concrete states used by the witnesses

`W2` is `new` after inserting 10 then 20 (slot 1 is the MRU head, slot 0
the LRU tail, slots 2 and 3 chained on the free list); the other states
are the results of the concrete operations named in their comments. -/

def W2 : LruSlab Nat :=
  { slots := [⟨some 10, NONE, 1⟩, ⟨some 20, 0, NONE⟩, ⟨none, 3, NONE⟩, ⟨none, NONE, NONE⟩]
    head := 1
    tail := 0
    free := 2
    len := 2 }

/-- `W2.remove 0 = some (10, W2a)`. -/
def W2a : LruSlab Nat :=
  { slots := [⟨none, 2, NONE⟩, ⟨some 20, NONE, NONE⟩, ⟨none, 3, NONE⟩, ⟨none, NONE, NONE⟩]
    head := 1
    tail := 1
    free := 0
    len := 1 }

/-- `W2a.remove 1 = some (20, W2b)`. -/
def W2b : LruSlab Nat :=
  { slots := [⟨none, 2, NONE⟩, ⟨none, 0, NONE⟩, ⟨none, 3, NONE⟩, ⟨none, NONE, NONE⟩]
    head := NONE
    tail := NONE
    free := 1
    len := 0 }

/-- `W2b.insert 7 = some (1, W2c)`. -/
def W2c : LruSlab Nat :=
  { slots := [⟨none, 2, NONE⟩, ⟨some 7, NONE, NONE⟩, ⟨none, 3, NONE⟩, ⟨none, NONE, NONE⟩]
    head := 1
    tail := 1
    free := 0
    len := 1 }

/-- `W2c.insert 8 = some (0, W2d)`. -/
def W2d : LruSlab Nat :=
  { slots := [⟨some 8, 1, NONE⟩, ⟨some 7, NONE, 0⟩, ⟨none, 3, NONE⟩, ⟨none, NONE, NONE⟩]
    head := 0
    tail := 1
    free := 2
    len := 2 }

/-- `W2.get_mut 0 = some (10, Wg)`. -/
def Wg : LruSlab Nat :=
  { slots := [⟨some 10, 1, NONE⟩, ⟨some 20, NONE, 0⟩, ⟨none, 3, NONE⟩, ⟨none, NONE, NONE⟩]
    head := 0
    tail := 1
    free := 2
    len := 2 }

/-- `W2.insert 77 = some (2, Wi)`. -/
def Wi : LruSlab Nat :=
  { slots := [⟨some 10, NONE, 1⟩, ⟨some 20, 0, 2⟩, ⟨some 77, 1, NONE⟩, ⟨none, NONE, NONE⟩]
    head := 2
    tail := 0
    free := 3
    len := 3 }

/-- `W2` after two more inserts (30 then 40): capacity 4 full, free list
empty, so the next insert grows. -/
def W4 : LruSlab Nat :=
  { slots := [⟨some 10, NONE, 1⟩, ⟨some 20, 0, 2⟩, ⟨some 30, 1, 3⟩, ⟨some 40, 2, NONE⟩]
    head := 3
    tail := 0
    free := NONE
    len := 4 }

/-- `W4.insert 50 = some (4, W4g)`: growth from capacity 4 to 8. -/
def W4g : LruSlab Nat :=
  { slots := [⟨some 10, NONE, 1⟩, ⟨some 20, 0, 2⟩, ⟨some 30, 1, 3⟩, ⟨some 40, 2, 4⟩,
      ⟨some 50, 3, NONE⟩, ⟨none, 6, NONE⟩, ⟨none, 7, NONE⟩, ⟨none, NONE, NONE⟩]
    head := 4
    tail := 0
    free := 5
    len := 5 }

theorem shape_W2 : Shape W2 ([1] ++ 0 :: []) [2, 3] :=
  ⟨by decide, by decide, by decide, by decide, by decide, by decide, by decide,
    by decide, by decide⟩

/-! ## Witnesses -/

/-- Witness for C1 (amended) at `W4` (full capacity-4 state). -/
theorem C1_growth_capacity_witness :
    W4.free = NONE ∧ W4.insert 50 = some (4, W4g) ∧
      (W4g.capacity = 2 * max W4.capacity 2 ∧ 4 = W4.capacity ∧
        W4g.free = W4.capacity + 1 ∧ W4g.free < W4g.capacity ∧ W4g.free ≠ NONE) :=
  ⟨by decide, by decide, @C1_growth_capacity Nat W4 50 4 W4g (by decide) (by decide)⟩

/-- Witness for C2 at concrete states: a growing insert from `W4`
preserves the value at handle 0, and each operation keeps the capacity. -/
theorem C2_growth_preserves_witness :
    (W4.free = NONE ∧ W4.peek 0 = some 10 ∧ W4.insert 50 = some (4, W4g)) ∧
    (W4g.peek 0 = some 10 ∧ 2 * W4.capacity ≤ W4g.capacity ∧ 2 ≤ W4g.capacity) ∧
    W2.capacity ≤ Wi.capacity ∧ W2.capacity ≤ W2a.capacity ∧
    W2.capacity ≤ Wg.capacity := by
  refine ⟨⟨by decide, by decide, by decide⟩, ?_, ?_, ?_, ?_⟩
  · exact C2_growth_preserves.1 W4 50 10 0 4 W4g (by decide) (by decide) (by decide)
  · exact C2_growth_preserves.2.1 W2 77 2 Wi (by decide)
  · exact C2_growth_preserves.2.2.1 W2 0 10 W2a (by decide)
  · exact C2_growth_preserves.2.2.2 W2 0 10 Wg (by decide)

/-- Witness for C3 at the freshly constructed empty state. -/
theorem C3_reachable_invariants_witness :
    ((LruSlab.new Nat).head = NONE ↔ (LruSlab.new Nat).len = 0) ∧
    ((LruSlab.new Nat).tail = NONE ↔ (LruSlab.new Nat).len = 0) ∧
    ∃ ll fl, NextChain (LruSlab.new Nat).slots (LruSlab.new Nat).head ll ∧
      ll.length = (LruSlab.new Nat).len ∧
      (LruSlab.new Nat).tail = ll.getLastD NONE ∧
      (∀ a ∈ ll, (valAt (LruSlab.new Nat).slots a).isSome = true) ∧
      NextChain (LruSlab.new Nat).slots (LruSlab.new Nat).free fl ∧
      (∀ a ∈ fl, valAt (LruSlab.new Nat).slots a = none) ∧
      fl.length = (LruSlab.new Nat).capacity - (LruSlab.new Nat).len :=
  C3_reachable_invariants
    (Reachable.of_with_capacity 0 (LruSlab.new Nat) (by decide) (by decide))

/-- Witness for C4 along the concrete chain `W2 → W2a → W2b → W2c → W2d`. -/
theorem C4_lifo_reuse_witness :
    (W2a.capacity < NONE ∧ W2a.remove 1 = some (20, W2b) ∧
      W2b.insert 7 = some (1, W2c) ∧ (1 : Nat) = 1) ∧
    (W2.capacity < NONE ∧ W2.remove 0 = some (10, W2a) ∧
      W2a.remove 1 = some (20, W2b) ∧ W2b.insert 7 = some (1, W2c) ∧
      W2c.insert 8 = some (0, W2d) ∧ ((1 : Nat) = 1 ∧ (0 : Nat) = 0)) := by
  refine ⟨⟨by decide, by decide, by decide, ?_⟩,
    by decide, by decide, by decide, by decide, by decide, ?_⟩
  · exact C4_lifo_reuse.1 W2a 1 20 W2b 7 1 W2c (by decide) (by decide) (by decide)
  · exact C4_lifo_reuse.2 W2 0 1 10 20 W2a W2b 7 8 1 W2c 0 W2d
      (by decide) (by decide) (by decide) (by decide) (by decide)

/-- Witness for C5 with the concrete insertions 1, 2, 3. -/
theorem C5_mru_order_witness :
    ([1, 2, 3] : List Nat).length ≤ 2 ^ 31 ∧
    ∃ s', insertAll (LruSlab.new Nat) [1, 2, 3] = some s' ∧
      iterList s' = some ([1, 2, 3] : List Nat).reverse ∧
      s'.len = ([1, 2, 3] : List Nat).length ∧
      ([1, 2, 3] : List Nat).reverse.length = s'.len :=
  ⟨by norm_num, C5_mru_order [1, 2, 3] (by norm_num)⟩

/-- Witness for C6: freshening the tail slot 0 of `W2`. -/
theorem C6_freshen_reorders_witness :
    ∃ v s', W2.get_mut 0 = some (v, s') ∧
      Shape s' (0 :: ([1] ++ [])) [2, 3] ∧
      (∀ k, valAt s'.slots k = valAt W2.slots k) ∧
      iterList s' = valsOf W2.slots (0 :: ([1] ++ [])) ∧
      ([1] = ([] : List Nat) → s' = W2) :=
  C6_freshen_reorders shape_W2

/-- Witness for C7: draining the two-element state `W2`. -/
theorem C7_lru_drain_witness :
    (W2.len ≠ 0 → W2.lru = some W2.tail) ∧ (W2.len = 0 → W2.lru = none) ∧
    ∃ vs s', drainAll W2.len W2 = some (vs, s') ∧ iterList W2 = some vs.reverse ∧
      s'.len = 0 ∧ s'.lru = none :=
  C7_lru_drain shape_W2

/-- Witness for C8: peeking mutably at slot 0 of `W2`. -/
theorem C8_peek_no_reorder_witness :
    W2.peek_mut 0 = some (10, W2) ∧
    (W2.peek 0 = some 10 ∧ valAt W2.slots 0 = some 10 ∧ W2.head = W2.head ∧
      W2.tail = W2.tail ∧ W2.free = W2.free ∧ W2.len = W2.len ∧ W2.slots = W2.slots) :=
  ⟨by decide, C8_peek_no_reorder (by decide)⟩

/-- Witness for C9 at `W2`, on the occupied slot 0 and the free slot 2. -/
theorem C9_remove_fail_fast_witness :
    ((W2.remove 0 = none ↔ valAt W2.slots 0 = none) ∧
      (∀ v, valAt W2.slots 0 = some v → ∃ s', W2.remove 0 = some (v, s'))) ∧
    ((W2.remove 2 = none ↔ valAt W2.slots 2 = none) ∧
      (∀ v, valAt W2.slots 2 = some v → ∃ s', W2.remove 2 = some (v, s'))) :=
  ⟨C9_remove_fail_fast shape_W2 0, C9_remove_fail_fast shape_W2 2⟩

/-- Witness for C10: the handle from inserting into `W2`. -/
theorem C10_handles_in_bounds_witness :
    W2.insert 77 = some (2, Wi) ∧
    (2 < Wi.capacity ∧ 2 ≠ NONE ∧ (Wi.slots[2]?).isSome = true) :=
  ⟨by decide, @C10_handles_in_bounds Nat W2 ([1] ++ 0 :: []) [2, 3] 77 2 Wi
    shape_W2 (by decide)⟩

end LruSlab
